import Mathlib

/-!
# Verification of the govici vici message codec and client connection

This file is a shallow embedding, in Lean 4, of the parts of the
strongswan/govici repository (package `vici`) that the verified claims
are about:

* the binary message codec (`vici/message.go`: `Message.encode`,
  `Message.decode`, `encodeKey`/`encodeValue`/`decodeKey`/`decodeValue`,
  `safePutUint8`/`safePutUint16`, the element and packet type constants);
* the message container operations (`addItemFull`, `Unset`, `Keys`, `Err`);
* the marshaling layer (`emptyMessageElement`, `marshalFromStruct`,
  `marshalField`, `unmarshalField`);
* the client connection logic (`clientConn.read`, `clientConn.request`,
  `clientConn.call`, `clientConn.dispatch`).

Go byte strings are modelled as `List Nat` with every element `< 256`.
A Go `Message` holds `keys []string` (insertion order) and
`data map[string]any`; the map is modelled as an association list with
map semantics (`dataLookup` / `dataInsert` / `dataDelete`): the order of
the association list is unobservable, as every access goes through those
functions or through the `keys` list.  Sub-sections (`*Message` values)
are carried by the `MValue.vsect` constructor holding the sub-message's
`keys` and `data`; a section's packet header is always `nil` in the Go
code paths modelled here (`NewMessage`), so it is not carried.
-/

namespace Govici

/-- A Go byte string: list of byte values. -/
abbrev Bytes := List Nat

/-! ## Wire constants (message.go)

The element tags `msgSectionStart = 1 … msgListEnd = 6` and the packet
types `pktCmdRequest = 0 … pktInvalid = 8`. -/

def msgSectionStart : Nat := 1
def msgSectionEnd : Nat := 2
def msgKeyValue : Nat := 3
def msgListStart : Nat := 4
def msgListItem : Nat := 5
def msgListEnd : Nat := 6

def pktCmdRequest : Nat := 0
def pktCmdResponse : Nat := 1
def pktCmdUnknown : Nat := 2
def pktEventRegister : Nat := 3
def pktEventUnregister : Nat := 4
def pktEventConfirm : Nat := 5
def pktEventUnknown : Nat := 6
def pktEvent : Nat := 7
def pktInvalid : Nat := 8

/-- Packet header (`header` struct in message.go): packet type, name,
and sequence number stamped by the reader loop. -/
structure Header where
  ptype : Nat
  name : Bytes
  seq : Nat
  deriving DecidableEq, Repr

/-- A message element value: the `any` stored in `Message.data` is one
of `string`, `[]string` or `*Message` (a sub-section, carried as its
`keys` and `data` fields). -/
inductive MValue where
  | vstr (s : Bytes)
  | vlist (l : List Bytes)
  | vsect (keys : List Bytes) (data : List (Bytes × MValue))

/-- The `Message` struct: optional packet header, ordered key list, and
the data map (modelled as an association list with map semantics). -/
structure Message where
  header : Option Header
  keys : List Bytes
  data : List (Bytes × MValue)

/-- `NewMessage`: empty message with nil header. -/
def NewMessage : Message := ⟨none, [], []⟩

/-! ## Data map operations (model of the Go `map[string]any`) -/

/-- Lookup in the data map. -/
def dataLookup : List (Bytes × MValue) → Bytes → Option MValue
  | [], _ => none
  | (k', v) :: rest, k => if k' = k then some v else dataLookup rest k

/-- `m.data[key] = value`: replace in place if present, else append. -/
def dataInsert : List (Bytes × MValue) → Bytes → MValue → List (Bytes × MValue)
  | [], k, v => [(k, v)]
  | (k', v') :: rest, k, v =>
    if k' = k then (k, v) :: rest else (k', v') :: dataInsert rest k v

/-- `delete(m.data, key)`. -/
def dataDelete : List (Bytes × MValue) → Bytes → List (Bytes × MValue)
  | [], _ => []
  | (k', v') :: rest, k =>
    if k' = k then dataDelete rest k else (k', v') :: dataDelete rest k

/-- The keys of a data map, in association-list order. -/
def dataKeys (data : List (Bytes × MValue)) : List Bytes := data.map Prod.fst

/-! ## Message container operations (message.go) -/

/-- `Message.addItemFull`: error when `unique` and the key exists;
otherwise store the value, appending the key to `keys` only when new. -/
def Message.addItemFull (m : Message) (key : Bytes) (value : MValue) (unique : Bool) :
    Option Message :=
  let exists_ := (dataLookup m.data key).isSome
  if exists_ ∧ unique then
    none
  else
    some { m with
      data := dataInsert m.data key value
      keys := if exists_ then m.keys else m.keys ++ [key] }

/-- `Message.addItemUnique`. -/
def Message.addItemUnique (m : Message) (key : Bytes) (value : MValue) : Option Message :=
  m.addItemFull key value true

/-- `Message.addItem`. -/
def Message.addItem (m : Message) (key : Bytes) (value : MValue) : Message :=
  (m.addItemFull key value false).getD m

/-- `Message.Unset`: remove the first matching entry of `keys`
(preserving order) and delete the key from `data`; no effect when the
key is absent. -/
def Message.Unset (m : Message) (key : Bytes) : Message :=
  match h : m.keys.indexOf? key with
  | none => m
  | some _ => { m with keys := m.keys.erase key, data := dataDelete m.data key }

/-- `Message.Get`. -/
def Message.Get (m : Message) (key : Bytes) : Option MValue :=
  dataLookup m.data key

/-- `Message.Keys` (returns a copy of the keys list). -/
def Message.Keys (m : Message) : List Bytes := m.keys

/-! ## Packet classification (message.go) -/

/-- `ptype` values whose packets carry a name: `pktCmdRequest`,
`pktEventRegister`, `pktEventUnregister`, `pktEvent` (the named cases of
the `packetIsNamed` switch). -/
def ptypeNamed (p : Nat) : Bool :=
  p = pktCmdRequest ∨ p = pktEventRegister ∨ p = pktEventUnregister ∨ p = pktEvent

/-- `Message.packetIsNamed`: packet types carrying a name. -/
def Message.packetIsNamed (m : Message) : Bool :=
  match m.header with
  | none => false
  | some h => ptypeNamed h.ptype

/-- `Message.packetIsValid`: non-nil header, type below `pktInvalid`,
and a non-empty name for named packet types. -/
def Message.packetIsValid (m : Message) : Bool :=
  match m.header with
  | none => false
  | some h => h.ptype < pktInvalid ∧ (m.packetIsNamed → h.name ≠ [])

/-! ## Encoding (message.go)

The Go code writes into a `bytes.Buffer`; the model returns the bytes
written, or the error.  `EncErr` names the distinct error paths of the
source: `errEncoding: cannot encode invalid packet`,
`errEncoding: cannot encode empty key`, the `val too long (%d > %d)`
errors from `safePutUint8`/`safePutUint16`, and `errUnsupportedType`. -/

inductive EncErr where
  | invalidPacket
  | emptyKey
  | valTooLong (val : Nat) (limit : Nat)
  | unsupportedType
  deriving DecidableEq, Repr

/-- `safePutUint8`: one byte, error when the value exceeds 255. -/
def safePutUint8 (val : Nat) : Except EncErr Bytes :=
  if val > 255 then .error (.valTooLong val 255) else .ok [val]

/-- `safePutUint16`: two big-endian bytes, error when the value exceeds 65535. -/
def safePutUint16 (val : Nat) : Except EncErr Bytes :=
  if val > 65535 then .error (.valTooLong val 65535) else .ok [val / 256, val % 256]

/-- `encodeKey`: reject the empty key, then length byte followed by the key. -/
def encodeKey (key : Bytes) : Except EncErr Bytes :=
  if key = [] then .error .emptyKey
  else do
    let l ← safePutUint8 key.length
    return l ++ key

/-- `encodeValue`: two length bytes followed by the value. -/
def encodeValue (value : Bytes) : Except EncErr Bytes := do
  let l ← safePutUint16 value.length
  return l ++ value

/-- `encodeKeyValue`: element tag 3, key, value. -/
def encodeKeyValue (key value : Bytes) : Except EncErr Bytes := do
  let k ← encodeKey key
  let v ← encodeValue value
  return msgKeyValue :: (k ++ v)

/-- The item part of `encodeList`: each item is tag 5 followed by the value. -/
def encodeListItems : List Bytes → Except EncErr Bytes
  | [] => .ok []
  | item :: rest => do
    let v ← encodeValue item
    let r ← encodeListItems rest
    return msgListItem :: (v ++ r)

/-- `encodeList`: tag 4, key, items, tag 6. -/
def encodeList (key : Bytes) (list : List Bytes) : Except EncErr Bytes := do
  let k ← encodeKey key
  let items ← encodeListItems list
  return msgListStart :: (k ++ items ++ [msgListEnd])

theorem dataLookup_sizeOf {data : List (Bytes × MValue)} {k : Bytes} {v : MValue}
    (h : dataLookup data k = some v) : sizeOf v < sizeOf data := by
  induction data with
  | nil => simp [dataLookup] at h
  | cons hd tl ih =>
    obtain ⟨k', v'⟩ := hd
    simp only [dataLookup] at h
    split at h
    · cases h
      simp
      omega
    · have := ih h
      simp
      omega

/-- `Message.encodeElements`: iterate the keys in order, fetch each
value from the data map, and emit the corresponding element
(`encodeKeyValue`, `encodeList`, or a section: tag 1, key, recursively
encoded elements, tag 2).  A key missing from the data map is the
`default` branch of the Go switch (`errUnsupportedType`). -/
def encodeElements (keys : List Bytes) (data : List (Bytes × MValue)) :
    Except EncErr Bytes :=
  match keys with
  | [] => .ok []
  | k :: rest =>
    match h : dataLookup data k with
    | some (.vstr s) => do
      let e ← encodeKeyValue k s
      let r ← encodeElements rest data
      return e ++ r
    | some (.vlist l) => do
      let e ← encodeList k l
      let r ← encodeElements rest data
      return e ++ r
    | some (.vsect ks ds) => do
      let ek ← encodeKey k
      let es ← encodeElements ks ds
      let r ← encodeElements rest data
      return (msgSectionStart :: (ek ++ es ++ [msgSectionEnd])) ++ r
    | none => .error .unsupportedType
termination_by (sizeOf data, keys.length)
decreasing_by
  · exact Prod.Lex.right _ (by simp)
  · exact Prod.Lex.right _ (by simp)
  · exact Prod.Lex.left _ _ (by have := dataLookup_sizeOf h; simp at this; omega)
  · exact Prod.Lex.right _ (by simp)

/-- `Message.encode`: reject invalid packets, then the packet type byte,
the name for named packets, and the encoded elements. -/
def Message.encode (m : Message) : Except EncErr Bytes :=
  if ¬ m.packetIsValid then .error .invalidPacket
  else
    match m.header with
    | none => .error .invalidPacket
    | some h => do
      let name ← if m.packetIsNamed then encodeKey h.name else pure []
      let body ← encodeElements m.keys m.data
      return h.ptype :: (name ++ body)

/-! ## Decoding (message.go)

The Go code reads from a `bytes.Buffer`; the model threads the
remaining bytes explicitly.  The two decoding loops (`Message.decode`'s
top-level loop and `decodeSection`'s loop) are given a fuel parameter;
since every iteration consumes at least one byte of the buffer, the
fuel `buffer length + 1` supplied by `Message.decode` always suffices,
and `DecErr.outOfFuel` never occurs there.

`DecErr` names the decoding error paths of the source: the
`errDecoding`-wrapped read failures, empty key, invalid packet type,
invalid element byte and duplicate key, plus the `errMalformedMessage`
variants `errBadKey`, `errBadValue`, `errEndOfBuffer` and
`errExpectedBeginning`. -/

inductive DecErr where
  | readEOF
  | keyEmpty
  | badKey
  | badValue
  | endOfBuffer
  | expectedBeginning
  | invalidPacketType (b : Nat)
  | invalidElement (b : Nat)
  | keyExists (k : Bytes)
  | outOfFuel
  deriving DecidableEq, Repr

/-- `decodeKey`: read a length byte (error on empty buffer), reject a
zero length, then take that many bytes, checking a short read. -/
def decodeKey : Bytes → Except DecErr (Bytes × Bytes)
  | [] => .error .readEOF
  | n :: rest =>
    if n = 0 then .error .keyEmpty
    else if (rest.take n).length = n then .ok (rest.take n, rest.drop n)
    else .error .badKey

/-- `decodeValue`: read two big-endian length bytes (short read is
`errEndOfBuffer`), then take that many bytes, checking a short read. -/
def decodeValue : Bytes → Except DecErr (Bytes × Bytes)
  | b0 :: b1 :: rest =>
    if (rest.take (b0 * 256 + b1)).length = b0 * 256 + b1 then
      .ok (rest.take (b0 * 256 + b1), rest.drop (b0 * 256 + b1))
    else .error .badValue
  | _ => .error .endOfBuffer

theorem decodeKey_length_le {buf k rest : Bytes} (h : decodeKey buf = .ok (k, rest)) :
    rest.length < buf.length := by
  match buf with
  | [] => simp [decodeKey] at h
  | n :: tl =>
    simp only [decodeKey] at h
    split at h
    · cases h
    · split at h
      · cases h
        simp
        omega
      · cases h

theorem decodeValue_length_le {buf v rest : Bytes} (h : decodeValue buf = .ok (v, rest)) :
    rest.length + 2 ≤ buf.length := by
  match buf with
  | [] | [_] => simp [decodeValue] at h
  | b0 :: b1 :: tl =>
    simp only [decodeValue] at h
    split at h
    · cases h
      simp only [List.length_drop, List.length_cons]
      omega
    · cases h

/-- The loop of `Message.decodeList`: read element bytes until
`msgListEnd`, requiring `msgListItem` before each value. -/
def decodeListItems : Bytes → Except DecErr (List Bytes × Bytes)
  | [] => .error .readEOF
  | b :: rest =>
    if b = msgListEnd then .ok ([], rest)
    else if b = msgListItem then
      match h : decodeValue rest with
      | .error e => .error e
      | .ok (v, rest') => do
        let (items, rest'') ← decodeListItems rest'
        return (v :: items, rest'')
    else .error .expectedBeginning
termination_by buf => buf.length
decreasing_by
  have := decodeValue_length_le h
  simp only [List.length_cons]
  omega

/-- The loop of `Message.decodeSection`: read element bytes until
`msgSectionEnd`, dispatching on `msgKeyValue`, `msgListStart` and
`msgSectionStart` (any other byte is `errExpectedBeginning`), adding
each decoded element to the section with `addItemUnique`. -/
def decodeSectionElems (fuel : Nat) (sec : Message) (buf : Bytes) :
    Except DecErr (Message × Bytes) :=
  match fuel with
  | 0 => .error .outOfFuel
  | fuel + 1 =>
    match buf with
    | [] => .error .readEOF
    | b :: rest =>
      if b = msgSectionEnd then .ok (sec, rest)
      else if b = msgKeyValue then do
        let (key, rest₁) ← decodeKey rest
        let (value, rest₂) ← decodeValue rest₁
        match sec.addItemUnique key (.vstr value) with
        | none => .error (.keyExists key)
        | some sec' => decodeSectionElems fuel sec' rest₂
      else if b = msgListStart then do
        let (key, rest₁) ← decodeKey rest
        let (items, rest₂) ← decodeListItems rest₁
        match sec.addItemUnique key (.vlist items) with
        | none => .error (.keyExists key)
        | some sec' => decodeSectionElems fuel sec' rest₂
      else if b = msgSectionStart then do
        let (key, rest₁) ← decodeKey rest
        let (sub, rest₂) ← decodeSectionElems fuel NewMessage rest₁
        match sec.addItemUnique key (.vsect sub.keys sub.data) with
        | none => .error (.keyExists key)
        | some sec' => decodeSectionElems fuel sec' rest₂
      else .error .expectedBeginning

/-- The top-level loop of `Message.decode`: read elements until the
buffer is exhausted; any byte other than `msgKeyValue`, `msgListStart`
or `msgSectionStart` is `invalid byte looking for next element type`. -/
def decodeLoop (fuel : Nat) (m : Message) (buf : Bytes) : Except DecErr Message :=
  match fuel with
  | 0 => .error .outOfFuel
  | fuel + 1 =>
    match buf with
    | [] => .ok m
    | b :: rest =>
      if b = msgKeyValue then do
        let (key, rest₁) ← decodeKey rest
        let (value, rest₂) ← decodeValue rest₁
        match m.addItemUnique key (.vstr value) with
        | none => .error (.keyExists key)
        | some m' => decodeLoop fuel m' rest₂
      else if b = msgListStart then do
        let (key, rest₁) ← decodeKey rest
        let (items, rest₂) ← decodeListItems rest₁
        match m.addItemUnique key (.vlist items) with
        | none => .error (.keyExists key)
        | some m' => decodeLoop fuel m' rest₂
      else if b = msgSectionStart then do
        let (key, rest₁) ← decodeKey rest
        let (sub, rest₂) ← decodeSectionElems fuel NewMessage rest₁
        match m.addItemUnique key (.vsect sub.keys sub.data) with
        | none => .error (.keyExists key)
        | some m' => decodeLoop fuel m' rest₂
      else .error (.invalidElement b)

/-- `Message.decode`: read and validate the packet type byte, read the
name for named packet types, then run the element loop on the rest.
In the source `decode` fills the receiver in place; it is only ever
invoked on a fresh `NewMessage` (`readmsg`, `clientConn.read`), which
is the behaviour modelled. -/
def Message.decode (data : Bytes) : Except DecErr Message :=
  match data with
  | [] => .error .readEOF
  | b :: rest =>
    if b ≥ pktInvalid then .error (.invalidPacketType b)
    else if ptypeNamed b then do
      let (name, rest₁) ← decodeKey rest
      decodeLoop (rest₁.length + 1) ⟨some ⟨b, name, 0⟩, [], []⟩ rest₁
    else
      decodeLoop (rest.length + 1) ⟨some ⟨b, [], 0⟩, [], []⟩ rest

/-! ## clientConn.read (client_conn.go)

`read` pulls a 4-byte big-endian length from the connection, then reads
exactly that many bytes and decodes them.  The connection is modelled
as the byte stream it will deliver; the result is paired with the bytes
left unconsumed on the stream.  There is no upper bound on the declared
length: whatever 32-bit value arrives is allocated and read. -/

inductive ReadErr where
  | ioShortRead
  | decodeFailed (e : DecErr)
  deriving DecidableEq, Repr

/-- `clientConn.read`: `io.ReadFull` of the 4-byte length header,
`io.ReadFull` of the declared number of bytes, then `Message.decode`. -/
def clientConnRead : Bytes → Except ReadErr Message × Bytes
  | b0 :: b1 :: b2 :: b3 :: rest =>
    let pl := ((b0 * 256 + b1) * 256 + b2) * 256 + b3
    if (rest.take pl).length = pl then
      match Message.decode (rest.take pl) with
      | .ok m => (.ok m, rest.drop pl)
      | .error e => (.error (.decodeFailed e), rest.drop pl)
    else (.error .ioShortRead, [])
  | _ => (.error .ioShortRead, [])

/-! ## Well-formedness

A well-formed message, per the wire format limits: keys non-empty and
at most 255 bytes, scalar values and list items at most 65535 bytes,
all content bytes below 256, keys unique at every level, and the data
map in insertion order (`dataKeys data = keys` — the canonical form
produced by `NewMessage` and preserved by every message operation). -/

/-- A key fits the wire format: non-empty, length ≤ 255, bytes < 256. -/
def keyOK (k : Bytes) : Bool :=
  decide (k ≠ []) && decide (k.length ≤ 255) && k.all (· < 256)

/-- A scalar / list item fits the wire format: length ≤ 65535, bytes < 256. -/
def valOK (s : Bytes) : Bool :=
  decide (s.length ≤ 65535) && s.all (· < 256)

mutual

/-- Well-formedness of a message element value. -/
def mvalueWF : MValue → Bool
  | .vstr s => valOK s
  | .vlist l => l.all valOK
  | .vsect ks ds => decide (dataKeys ds = ks) && dataWF ds

/-- Well-formedness of a data map: each key valid and unique, each
value well-formed. -/
def dataWF : List (Bytes × MValue) → Bool
  | [] => true
  | (k, v) :: rest =>
    keyOK k && mvalueWF v && (dataLookup rest k).isNone && dataWF rest

end

mutual

/-- Shape-only well-formedness of a value: sections canonical, no
length bounds.  (`mvalueWF` additionally imposes the wire-format length
limits.) -/
def mvalueShape : MValue → Bool
  | .vstr _ => true
  | .vlist _ => true
  | .vsect ks ds => decide (dataKeys ds = ks) && dataShape ds

/-- Shape-only well-formedness of a data map: keys non-empty and
unique, sections canonical; no length bounds. -/
def dataShape : List (Bytes × MValue) → Bool
  | [] => true
  | (k, v) :: rest =>
    decide (k ≠ []) && mvalueShape v && (dataLookup rest k).isNone && dataShape rest

end

/-- Well-formedness of a packet header: type below `pktInvalid`, a name
fitting the wire format exactly for named packet types. -/
def headerWF : Option Header → Bool
  | none => false
  | some h =>
    decide (h.ptype < pktInvalid) &&
      (if ptypeNamed h.ptype then keyOK h.name else h.name.isEmpty)

/-- Well-formedness of a whole message (the hypothesis of the
round-trip claim). -/
def Message.wf (m : Message) : Bool :=
  headerWF m.header && decide (dataKeys m.data = m.keys) && dataWF m.data

/-! ## Canonical-order encoding

Proof-side helper: encoding of a data map in association-list order.
When the data map is in canonical (insertion) order — which `dataWF`
plus `dataKeys data = keys` guarantees — this agrees with
`encodeElements`, which iterates `keys` and looks each key up. -/

def encodeElemsL : List (Bytes × MValue) → Except EncErr Bytes
  | [] => .ok []
  | (k, .vstr s) :: rest => do
    let e ← encodeKeyValue k s
    let r ← encodeElemsL rest
    return e ++ r
  | (k, .vlist l) :: rest => do
    let e ← encodeList k l
    let r ← encodeElemsL rest
    return e ++ r
  | (k, .vsect _ ds) :: rest => do
    let ek ← encodeKey k
    let es ← encodeElemsL ds
    let r ← encodeElemsL rest
    return (msgSectionStart :: (ek ++ es ++ [msgSectionEnd])) ++ r

/-! ## Basic lemmas about the data map -/

theorem dataLookup_eq_none_iff {data : List (Bytes × MValue)} {k : Bytes} :
    dataLookup data k = none ↔ k ∉ dataKeys data := by
  induction data with
  | nil => simp [dataLookup, dataKeys]
  | cons hd tl ih =>
    obtain ⟨k', v'⟩ := hd
    simp only [dataLookup, dataKeys, List.map_cons, List.mem_cons]
    split
    · rename_i hkk
      simp [hkk]
    · rename_i hkk
      have h2 : ¬ k = k' := fun h => hkk h.symm
      rw [ih]
      simp [h2, dataKeys]

theorem dataLookup_append_right {pre post : List (Bytes × MValue)} {k : Bytes}
    (h : dataLookup pre k = none) :
    dataLookup (pre ++ post) k = dataLookup post k := by
  induction pre with
  | nil => simp
  | cons hd tl ih =>
    obtain ⟨k', v'⟩ := hd
    simp only [dataLookup, List.cons_append] at *
    split at h
    · cases h
    · simp only [if_neg ‹¬ k' = k›]
      exact ih h

theorem dataInsert_eq_append {data : List (Bytes × MValue)} {k : Bytes} {v : MValue}
    (h : dataLookup data k = none) : dataInsert data k v = data ++ [(k, v)] := by
  induction data with
  | nil => simp [dataInsert]
  | cons hd tl ih =>
    obtain ⟨k', v'⟩ := hd
    simp only [dataLookup] at h
    split at h
    · cases h
    · simp only [dataInsert, if_neg ‹¬ k' = k›, List.cons_append, List.cons.injEq, true_and]
      exact ih h

/-- `addItemUnique` on a fresh key appends to both the key list and the
data map. -/
theorem addItemUnique_fresh {m : Message} {k : Bytes} {v : MValue}
    (h : dataLookup m.data k = none) :
    m.addItemUnique k v = some ⟨m.header, m.keys ++ [k], m.data ++ [(k, v)]⟩ := by
  have hs : (dataLookup m.data k).isSome = false := by simp [h]
  simp [Message.addItemUnique, Message.addItemFull, hs, dataInsert_eq_append h]

/-- `addItemUnique` on an existing key fails. -/
theorem addItemUnique_dup {m : Message} {k : Bytes} {v : MValue}
    (h : (dataLookup m.data k).isSome) : m.addItemUnique k v = none := by
  simp only [Message.addItemUnique, Message.addItemFull, h]
  simp

theorem dataWF_cons {k : Bytes} {v : MValue} {rest : List (Bytes × MValue)} :
    dataWF ((k, v) :: rest) =
      (keyOK k && mvalueWF v && (dataLookup rest k).isNone && dataWF rest) := by
  simp [dataWF]

/-- Under `dataShape`, lookup of the head key of a decomposition finds
its value: no earlier entry can shadow it. -/
theorem dataShape_lookup_head {pre dt : List (Bytes × MValue)} {k : Bytes} {v : MValue}
    (h : dataShape (pre ++ (k, v) :: dt) = true) :
    dataLookup (pre ++ (k, v) :: dt) k = some v := by
  induction pre with
  | nil => simp [dataLookup]
  | cons hd tl ih =>
    obtain ⟨k', v'⟩ := hd
    rw [List.cons_append, dataShape] at h
    simp only [Bool.and_eq_true] at h
    obtain ⟨⟨⟨-, -⟩, hnone⟩, hrest⟩ := h
    have hk : k' ≠ k := by
      intro heq
      subst heq
      rw [Option.isNone_iff_eq_none, dataLookup_eq_none_iff] at hnone
      exact hnone (by simp [dataKeys])
    simp only [List.cons_append, dataLookup, if_neg hk]
    exact ih hrest

/-! ## Encoder characterization under the wire-format bounds -/

theorem encodeKey_ok {k : Bytes} (h1 : k ≠ []) (h2 : k.length ≤ 255) :
    encodeKey k = .ok (k.length :: k) := by
  simp [encodeKey, safePutUint8, h1, Nat.not_lt.mpr h2]

theorem encodeValue_ok {v : Bytes} (h : v.length ≤ 65535) :
    encodeValue v = .ok (v.length / 256 :: v.length % 256 :: v) := by
  simp [encodeValue, safePutUint16, Nat.not_lt.mpr h]

theorem dataShape_append_right {xs ys : List (Bytes × MValue)}
    (h : dataShape (xs ++ ys) = true) : dataShape ys = true := by
  induction xs with
  | nil => simpa using h
  | cons hd tl ih =>
    obtain ⟨k, v⟩ := hd
    rw [List.cons_append, dataShape] at h
    simp only [Bool.and_eq_true] at h
    exact ih h.2

theorem keyOK_iff {k : Bytes} :
    keyOK k = true ↔ k ≠ [] ∧ k.length ≤ 255 ∧ (∀ b ∈ k, b < 256) := by
  simp [keyOK, and_assoc]

theorem valOK_iff {s : Bytes} :
    valOK s = true ↔ s.length ≤ 65535 ∧ (∀ b ∈ s, b < 256) := by
  simp [valOK]

/-- Full well-formedness implies shape-only well-formedness. -/
theorem dataWF_imp_shape :
    ∀ (n : Nat) (ds : List (Bytes × MValue)), sizeOf ds ≤ n → dataWF ds = true →
      dataShape ds = true := by
  intro n
  induction n with
  | zero =>
    intro ds hsz
    exact absurd hsz (by cases ds <;> simp)
  | succ n ih =>
    intro ds hsz hwf
    cases ds with
    | nil => rw [dataShape]
    | cons hd dt =>
      obtain ⟨k, v⟩ := hd
      rw [dataWF] at hwf
      simp only [Bool.and_eq_true] at hwf
      obtain ⟨⟨⟨hkeyok, hvwf⟩, hnone⟩, hwfdt⟩ := hwf
      obtain ⟨hne, -, -⟩ := keyOK_iff.mp hkeyok
      have hvs : mvalueShape v = true := by
        cases v with
        | vstr s => rw [mvalueShape]
        | vlist l => rw [mvalueShape]
        | vsect ks ds2 =>
          rw [mvalueWF] at hvwf
          simp only [Bool.and_eq_true, decide_eq_true_eq] at hvwf
          rw [mvalueShape]
          simp only [Bool.and_eq_true, decide_eq_true_eq]
          refine ⟨hvwf.1, ih ds2 ?_ hvwf.2⟩
          simp at hsz
          omega
      rw [dataShape]
      simp only [Bool.and_eq_true, decide_eq_true_eq]
      refine ⟨⟨⟨hne, hvs⟩, hnone⟩, ih dt ?_ hwfdt⟩
      simp at hsz
      omega

/-- On a shape-well-formed data map, `encodeElements` (which walks the
key list and looks each key up) coincides with the
association-list-order encoding `encodeElemsL`. -/
theorem encodeElements_eq_encodeElemsL :
    ∀ (n : Nat) (pre ds : List (Bytes × MValue)), sizeOf ds ≤ n →
      dataShape (pre ++ ds) = true →
      encodeElements (dataKeys ds) (pre ++ ds) = encodeElemsL ds := by
  intro n
  induction n with
  | zero =>
    intro pre ds hsz
    exact absurd hsz (by cases ds <;> simp)
  | succ n ih =>
    intro pre ds hsz hwf
    cases ds with
    | nil => simp [dataKeys, encodeElements, encodeElemsL]
    | cons hd dt =>
      obtain ⟨k, v⟩ := hd
      have hlook : dataLookup (pre ++ (k, v) :: dt) k = some v := dataShape_lookup_head hwf
      have hwfv : mvalueShape v = true := by
        have := dataShape_append_right hwf
        rw [dataShape] at this
        simp only [Bool.and_eq_true] at this
        exact this.1.1.2
      have happ : pre ++ (k, v) :: dt = (pre ++ [(k, v)]) ++ dt := by
        simp
      have htl : encodeElements (dataKeys dt) (pre ++ (k, v) :: dt) = encodeElemsL dt := by
        rw [happ]
        refine ih (pre ++ [(k, v)]) dt ?_ (by rw [← happ]; exact hwf)
        simp at hsz ⊢
        omega
      simp only [dataKeys, List.map_cons]
      rw [encodeElements]
      split
      · rename_i s heq
        rw [hlook] at heq
        cases heq
        rw [encodeElemsL]
        rw [show (List.map Prod.fst dt) = dataKeys dt from rfl, htl]
      · rename_i l heq
        rw [hlook] at heq
        cases heq
        rw [encodeElemsL]
        rw [show (List.map Prod.fst dt) = dataKeys dt from rfl, htl]
      · rename_i ks ds2 heq
        rw [hlook] at heq
        cases heq
        rw [encodeElemsL]
        have hcanon : dataKeys ds2 = ks ∧ dataShape ds2 = true := by
          rw [mvalueShape] at hwfv
          simp only [Bool.and_eq_true, decide_eq_true_eq] at hwfv
          exact hwfv
        have hsub : encodeElements ks ds2 = encodeElemsL ds2 := by
          rw [← hcanon.1]
          refine ih [] ds2 ?_ (by simpa using hcanon.2)
          simp at hsz ⊢
          omega
        rw [hsub]
        rw [show (List.map Prod.fst dt) = dataKeys dt from rfl, htl]
      · rename_i heq
        rw [hlook] at heq
        cases heq

/-! ## Decoding an encoded buffer (forward round-trip lemmas) -/

theorem exceptBind_ok {α β ε : Type} (a : α) (f : α → Except ε β) :
    (Except.ok a >>= f) = f a := rfl

theorem exceptPure {α ε : Type} (a : α) : (pure a : Except ε α) = .ok a := rfl

theorem exceptBind_err {α β ε : Type} (e : ε) (f : α → Except ε β) :
    ((Except.error e : Except ε α) >>= f) = .error e := rfl

theorem exceptMap_ok {α β ε : Type} (f : α → β) (a : α) :
    (f <$> (Except.ok a : Except ε α)) = .ok (f a) := rfl

theorem exceptMap_err {α β ε : Type} (f : α → β) (e : ε) :
    (f <$> (Except.error e : Except ε α)) = .error e := rfl

theorem decodeKey_encode {k rest : Bytes} (h1 : k ≠ []) :
    decodeKey (k.length :: (k ++ rest)) = .ok (k, rest) := by
  have hlen : ¬ k.length = 0 := by simpa using h1
  simp [decodeKey, hlen, List.take_left, List.drop_left]

theorem decodeValue_encode (v rest : Bytes) :
    decodeValue (v.length / 256 :: v.length % 256 :: (v ++ rest)) = .ok (v, rest) := by
  have hv : v.length / 256 * 256 + v.length % 256 = v.length := by omega
  simp [decodeValue, hv, List.take_left, List.drop_left]

theorem encodeValue_ok_iff {v out : Bytes} :
    encodeValue v = .ok out ↔
      v.length ≤ 65535 ∧ out = v.length / 256 :: v.length % 256 :: v := by
  unfold encodeValue safePutUint16
  split
  · rename_i hgt
    rw [exceptBind_err]
    constructor
    · intro h
      cases h
    · rintro ⟨hle, -⟩
      omega
  · rename_i hle
    rw [exceptBind_ok, exceptPure]
    simp only [Except.ok.injEq]
    constructor
    · rintro rfl
      exact ⟨by omega, by simp⟩
    · rintro ⟨-, rfl⟩
      simp

theorem encodeKey_ok_iff {k out : Bytes} :
    encodeKey k = .ok out ↔
      k ≠ [] ∧ k.length ≤ 255 ∧ out = k.length :: k := by
  unfold encodeKey safePutUint8
  split
  · rename_i hemp
    simp [hemp]
  · rename_i hemp
    split
    · rename_i hgt
      rw [exceptBind_err]
      constructor
      · intro h
        cases h
      · rintro ⟨-, hle, -⟩
        omega
    · rename_i hle
      rw [exceptBind_ok, exceptPure]
      simp only [Except.ok.injEq]
      constructor
      · rintro rfl
        exact ⟨hemp, by omega, by simp⟩
      · rintro ⟨-, -, rfl⟩
        simp

theorem decodeListItems_encode :
    ∀ (l : List Bytes) (enc rest : Bytes),
      encodeListItems l = .ok enc →
      decodeListItems (enc ++ msgListEnd :: rest) = .ok (l, rest) := by
  intro l
  induction l with
  | nil =>
    intro enc rest henc
    simp only [encodeListItems, Except.ok.injEq] at henc
    subst henc
    rw [List.nil_append, decodeListItems]
    simp [msgListEnd]
  | cons item tl ih =>
    intro enc rest henc
    rw [encodeListItems] at henc
    cases hv : encodeValue item with
    | error e =>
      rw [hv, exceptBind_err] at henc
      cases henc
    | ok ev =>
      rw [hv, exceptBind_ok] at henc
      cases hr : encodeListItems tl with
      | error e =>
        rw [hr, exceptBind_err] at henc
        cases henc
      | ok er =>
        rw [hr, exceptBind_ok, exceptPure] at henc
        simp only [Except.ok.injEq] at henc
        subst henc
        obtain ⟨hle, hev⟩ := encodeValue_ok_iff.mp hv
        subst hev
        simp only [List.cons_append, List.append_assoc]
        rw [decodeListItems]
        rw [if_neg (by simp [msgListItem, msgListEnd]), if_pos rfl]
        split
        · rename_i e heq
          rw [decodeValue_encode item (er ++ msgListEnd :: rest)] at heq
          cases heq
        · rename_i v' rest' heq
          rw [decodeValue_encode item (er ++ msgListEnd :: rest)] at heq
          cases heq
          rw [ih er rest hr, exceptBind_ok]
          rfl

theorem dataLookup_append_none {xs ys : List (Bytes × MValue)} {k : Bytes} :
    dataLookup (xs ++ ys) k = none ↔
      dataLookup xs k = none ∧ dataLookup ys k = none := by
  simp [dataLookup_eq_none_iff, dataKeys]

theorem encodeKeyValue_ok {k s : Bytes} (h1 : k ≠ []) (h2 : k.length ≤ 255)
    (h3 : s.length ≤ 65535) :
    encodeKeyValue k s =
      .ok (msgKeyValue :: ((k.length :: k) ++ (s.length / 256 :: s.length % 256 :: s))) := by
  rw [encodeKeyValue, encodeKey_ok h1 h2, exceptBind_ok, encodeValue_ok h3, exceptBind_ok]
  rfl

theorem encodeList_ok {k : Bytes} {l : List Bytes} {ei : Bytes}
    (h1 : k ≠ []) (h2 : k.length ≤ 255) (hei : encodeListItems l = .ok ei) :
    encodeList k l = .ok (msgListStart :: ((k.length :: k) ++ ei ++ [msgListEnd])) := by
  rw [encodeList, encodeKey_ok h1 h2, exceptBind_ok, hei, exceptBind_ok]
  rfl

theorem mem_dataKeys_cons {k' k : Bytes} {v : MValue} {dt : List (Bytes × MValue)} :
    k' ∈ dataKeys ((k, v) :: dt) ↔ k' = k ∨ k' ∈ dataKeys dt := by
  simp [dataKeys]

/-- Running the section-decoding loop on an encoded well-formed data
map, followed by the section-end tag and arbitrary trailing input,
recovers exactly that data map appended to the section built so far. -/
theorem decodeSectionElems_encode :
    ∀ (n : Nat) (ds : List (Bytes × MValue)), sizeOf ds ≤ n → dataWF ds = true →
      ∀ (sec : Message) (enc rest : Bytes) (fuel : Nat),
        encodeElemsL ds = .ok enc →
        (∀ k ∈ dataKeys ds, dataLookup sec.data k = none) →
        enc.length < fuel →
        decodeSectionElems fuel sec (enc ++ msgSectionEnd :: rest) =
          .ok (⟨sec.header, sec.keys ++ dataKeys ds, sec.data ++ ds⟩, rest) := by
  intro n
  induction n with
  | zero =>
    intro ds hsz
    exact absurd hsz (by cases ds <;> simp)
  | succ n ih =>
    intro ds hsz hwf sec enc rest fuel henc hfresh hfuel
    obtain ⟨f, rfl⟩ : ∃ f, fuel = f + 1 := ⟨fuel - 1, by omega⟩
    cases ds with
    | nil =>
      simp only [encodeElemsL, Except.ok.injEq] at henc
      subst henc
      rw [List.nil_append, decodeSectionElems]
      simp [dataKeys]
    | cons hd dt =>
      obtain ⟨k, v⟩ := hd
      rw [dataWF] at hwf
      simp only [Bool.and_eq_true] at hwf
      obtain ⟨⟨⟨hkeyok, hvwf⟩, hnodup⟩, hwfdt⟩ := hwf
      obtain ⟨hkne, hkle, -⟩ := keyOK_iff.mp hkeyok
      have hlookk : dataLookup sec.data k = none := hfresh k (by simp [dataKeys])
      have hknotdt : k ∉ dataKeys dt := by
        rw [← dataLookup_eq_none_iff, ← Option.isNone_iff_eq_none]
        exact hnodup
      have hszdt : sizeOf dt ≤ n := by
        simp at hsz
        omega
      have hfresh' : ∀ v', ∀ k' ∈ dataKeys dt,
          dataLookup (sec.data ++ [(k, v')]) k' = none := by
        intro v' k' hk'
        rw [dataLookup_append_none]
        refine ⟨hfresh k' (mem_dataKeys_cons.mpr (Or.inr hk')), ?_⟩
        have hne : ¬ k = k' := fun h => hknotdt (h ▸ hk')
        simp [dataLookup, hne]
      cases v with
      | vstr s =>
        have hsle : s.length ≤ 65535 := by
          rw [mvalueWF, valOK_iff] at hvwf
          exact hvwf.1
        rw [encodeElemsL, encodeKeyValue_ok hkne hkle hsle, exceptBind_ok] at henc
        cases henc' : encodeElemsL dt with
        | error e => rw [henc', exceptBind_err] at henc; cases henc
        | ok enc' =>
          rw [henc', exceptBind_ok, exceptPure] at henc
          simp only [Except.ok.injEq] at henc
          subst henc
          simp only [List.cons_append, List.append_assoc, List.singleton_append, List.nil_append]
          rw [decodeSectionElems]
          rw [if_neg (by decide), if_pos rfl]
          simp only [decodeKey_encode hkne, exceptBind_ok, decodeValue_encode,
            addItemUnique_fresh hlookk]
          rw [ih dt hszdt hwfdt ⟨sec.header, sec.keys ++ [k], sec.data ++ [(k, .vstr s)]⟩
            enc' rest f henc' (hfresh' _) (by simp at hfuel ⊢; omega)]
          simp [dataKeys, List.append_assoc]
      | vlist l =>
        rw [encodeElemsL] at henc
        cases hei : encodeListItems l with
        | error e =>
          rw [encodeList, encodeKey_ok hkne hkle, exceptBind_ok, hei, exceptBind_err,
            exceptBind_err] at henc
          cases henc
        | ok ei =>
          rw [encodeList_ok hkne hkle hei, exceptBind_ok] at henc
          cases henc' : encodeElemsL dt with
          | error e => rw [henc', exceptBind_err] at henc; cases henc
          | ok enc' =>
            rw [henc', exceptBind_ok, exceptPure] at henc
            simp only [Except.ok.injEq] at henc
            subst henc
            simp only [List.cons_append, List.append_assoc, List.singleton_append, List.nil_append]
            rw [decodeSectionElems]
            rw [if_neg (by decide), if_neg (by decide), if_pos rfl]
            simp only [decodeKey_encode hkne, exceptBind_ok,
              decodeListItems_encode l ei (enc' ++ msgSectionEnd :: rest) hei,
              addItemUnique_fresh hlookk]
            rw [ih dt hszdt hwfdt ⟨sec.header, sec.keys ++ [k], sec.data ++ [(k, .vlist l)]⟩
              enc' rest f henc' (hfresh' _) (by simp at hfuel ⊢; omega)]
            simp [dataKeys, List.append_assoc]
      | vsect ks ds2 =>
        have hcanon : dataKeys ds2 = ks ∧ dataWF ds2 = true := by
          rw [mvalueWF] at hvwf
          simp only [Bool.and_eq_true, decide_eq_true_eq] at hvwf
          exact hvwf
        rw [encodeElemsL, encodeKey_ok hkne hkle, exceptBind_ok] at henc
        cases hes : encodeElemsL ds2 with
        | error e => rw [hes, exceptBind_err] at henc; cases henc
        | ok es =>
          rw [hes, exceptBind_ok] at henc
          cases henc' : encodeElemsL dt with
          | error e => rw [henc', exceptBind_err] at henc; cases henc
          | ok enc' =>
            rw [henc', exceptBind_ok, exceptPure] at henc
            simp only [Except.ok.injEq] at henc
            subst henc
            have hsz2 : sizeOf ds2 ≤ n := by
              simp at hsz
              omega
            simp only [List.cons_append, List.append_assoc, List.singleton_append, List.nil_append]
            rw [decodeSectionElems]
            rw [if_neg (by decide), if_neg (by decide), if_neg (by decide), if_pos rfl]
            simp only [decodeKey_encode hkne, exceptBind_ok, NewMessage,
              ih ds2 hsz2 hcanon.2 ⟨none, [], []⟩ es (enc' ++ msgSectionEnd :: rest) f hes
                (by intro k' _; simp [dataLookup]) (by simp at hfuel ⊢; omega),
              List.nil_append, addItemUnique_fresh hlookk, hcanon.1]
            rw [ih dt hszdt hwfdt ⟨sec.header, sec.keys ++ [k], sec.data ++ [(k, .vsect ks ds2)]⟩
              enc' rest f henc' (hfresh' _) (by simp at hfuel ⊢; omega)]
            simp [dataKeys, List.append_assoc]

/-- Running the top-level decoding loop on an encoded well-formed data
map recovers exactly that data map. -/
theorem decodeLoop_encode :
    ∀ (ds : List (Bytes × MValue)), dataWF ds = true →
      ∀ (m : Message) (enc : Bytes) (fuel : Nat),
        encodeElemsL ds = .ok enc →
        (∀ k ∈ dataKeys ds, dataLookup m.data k = none) →
        enc.length < fuel →
        decodeLoop fuel m enc = .ok ⟨m.header, m.keys ++ dataKeys ds, m.data ++ ds⟩ := by
  intro ds
  induction ds with
  | nil =>
    intro _ m enc fuel henc _ hfuel
    simp only [encodeElemsL, Except.ok.injEq] at henc
    subst henc
    obtain ⟨f, rfl⟩ : ∃ f, fuel = f + 1 := ⟨fuel - 1, by omega⟩
    rw [decodeLoop]
    simp [dataKeys]
  | cons hd dt ihdt =>
    intro hwf m enc fuel henc hfresh hfuel
    obtain ⟨f, rfl⟩ : ∃ f, fuel = f + 1 := ⟨fuel - 1, by omega⟩
    obtain ⟨k, v⟩ := hd
    rw [dataWF] at hwf
    simp only [Bool.and_eq_true] at hwf
    obtain ⟨⟨⟨hkeyok, hvwf⟩, hnodup⟩, hwfdt⟩ := hwf
    obtain ⟨hkne, hkle, -⟩ := keyOK_iff.mp hkeyok
    have hlookk : dataLookup m.data k = none := hfresh k (by simp [dataKeys])
    have hknotdt : k ∉ dataKeys dt := by
      rw [← dataLookup_eq_none_iff, ← Option.isNone_iff_eq_none]
      exact hnodup
    have hfresh' : ∀ v', ∀ k' ∈ dataKeys dt,
        dataLookup (m.data ++ [(k, v')]) k' = none := by
      intro v' k' hk'
      rw [dataLookup_append_none]
      refine ⟨hfresh k' (mem_dataKeys_cons.mpr (Or.inr hk')), ?_⟩
      have hne : ¬ k = k' := fun h => hknotdt (h ▸ hk')
      simp [dataLookup, hne]
    cases v with
    | vstr s =>
      have hsle : s.length ≤ 65535 := by
        rw [mvalueWF, valOK_iff] at hvwf
        exact hvwf.1
      rw [encodeElemsL, encodeKeyValue_ok hkne hkle hsle, exceptBind_ok] at henc
      cases henc' : encodeElemsL dt with
      | error e => rw [henc', exceptBind_err] at henc; cases henc
      | ok enc' =>
        rw [henc', exceptBind_ok, exceptPure] at henc
        simp only [Except.ok.injEq] at henc
        subst henc
        simp only [List.cons_append, List.append_assoc, List.singleton_append, List.nil_append]
        rw [decodeLoop]
        rw [if_pos rfl]
        simp only [decodeKey_encode hkne, exceptBind_ok, decodeValue_encode,
          addItemUnique_fresh hlookk]
        rw [ihdt hwfdt ⟨m.header, m.keys ++ [k], m.data ++ [(k, .vstr s)]⟩
          enc' f henc' (hfresh' _) (by simp at hfuel ⊢; omega)]
        simp [dataKeys, List.append_assoc]
    | vlist l =>
      rw [encodeElemsL] at henc
      cases hei : encodeListItems l with
      | error e =>
        rw [encodeList, encodeKey_ok hkne hkle, exceptBind_ok, hei, exceptBind_err,
          exceptBind_err] at henc
        cases henc
      | ok ei =>
        rw [encodeList_ok hkne hkle hei, exceptBind_ok] at henc
        cases henc' : encodeElemsL dt with
        | error e => rw [henc', exceptBind_err] at henc; cases henc
        | ok enc' =>
          rw [henc', exceptBind_ok, exceptPure] at henc
          simp only [Except.ok.injEq] at henc
          subst henc
          simp only [List.cons_append, List.append_assoc, List.singleton_append, List.nil_append]
          rw [decodeLoop]
          rw [if_neg (by decide), if_pos rfl]
          simp only [decodeKey_encode hkne, exceptBind_ok,
            decodeListItems_encode l ei enc' hei, addItemUnique_fresh hlookk]
          rw [ihdt hwfdt ⟨m.header, m.keys ++ [k], m.data ++ [(k, .vlist l)]⟩
            enc' f henc' (hfresh' _) (by simp at hfuel ⊢; omega)]
          simp [dataKeys, List.append_assoc]
    | vsect ks ds2 =>
      have hcanon : dataKeys ds2 = ks ∧ dataWF ds2 = true := by
        rw [mvalueWF] at hvwf
        simp only [Bool.and_eq_true, decide_eq_true_eq] at hvwf
        exact hvwf
      rw [encodeElemsL, encodeKey_ok hkne hkle, exceptBind_ok] at henc
      cases hes : encodeElemsL ds2 with
      | error e => rw [hes, exceptBind_err] at henc; cases henc
      | ok es =>
        rw [hes, exceptBind_ok] at henc
        cases henc' : encodeElemsL dt with
        | error e => rw [henc', exceptBind_err] at henc; cases henc
        | ok enc' =>
          rw [henc', exceptBind_ok, exceptPure] at henc
          simp only [Except.ok.injEq] at henc
          subst henc
          simp only [List.cons_append, List.append_assoc, List.singleton_append, List.nil_append]
          rw [decodeLoop]
          rw [if_neg (by decide), if_neg (by decide), if_pos rfl]
          simp only [decodeKey_encode hkne, exceptBind_ok, NewMessage,
            decodeSectionElems_encode (sizeOf ds2) ds2 le_rfl hcanon.2 ⟨none, [], []⟩ es
              (enc' : Bytes) f hes (by intro k' _; simp [dataLookup])
              (by simp at hfuel ⊢; omega),
            List.nil_append, addItemUnique_fresh hlookk, hcanon.1]
          rw [ihdt hwfdt ⟨m.header, m.keys ++ [k], m.data ++ [(k, .vsect ks ds2)]⟩
            enc' f henc' (hfresh' _) (by simp at hfuel ⊢; omega)]
          simp [dataKeys, List.append_assoc]

/-- Encoding list items succeeds when every item fits the wire format. -/
theorem encodeListItems_ok_of_wf :
    ∀ (l : List Bytes), (∀ item ∈ l, valOK item = true) →
      ∃ ei, encodeListItems l = .ok ei := by
  intro l
  induction l with
  | nil => exact fun _ => ⟨[], rfl⟩
  | cons item tl ih =>
    intro h
    obtain ⟨hle, -⟩ := valOK_iff.mp (h item (by simp))
    obtain ⟨ei, hei⟩ := ih (fun i hi => h i (by simp [hi]))
    exact ⟨_, by rw [encodeListItems, encodeValue_ok hle, exceptBind_ok, hei, exceptBind_ok]; rfl⟩

/-- Encoding a well-formed data map succeeds. -/
theorem encodeElemsL_ok_of_wf :
    ∀ (n : Nat) (ds : List (Bytes × MValue)), sizeOf ds ≤ n → dataWF ds = true →
      ∃ enc, encodeElemsL ds = .ok enc := by
  intro n
  induction n with
  | zero =>
    intro ds hsz
    exact absurd hsz (by cases ds <;> simp)
  | succ n ih =>
    intro ds hsz hwf
    cases ds with
    | nil => exact ⟨[], by rw [encodeElemsL]⟩
    | cons hd dt =>
      obtain ⟨k, v⟩ := hd
      rw [dataWF] at hwf
      simp only [Bool.and_eq_true] at hwf
      obtain ⟨⟨⟨hkeyok, hvwf⟩, -⟩, hwfdt⟩ := hwf
      obtain ⟨hkne, hkle, -⟩ := keyOK_iff.mp hkeyok
      have hszdt : sizeOf dt ≤ n := by simp at hsz; omega
      obtain ⟨enc', henc'⟩ := ih dt hszdt hwfdt
      cases v with
      | vstr s =>
        have hsle : s.length ≤ 65535 := by
          rw [mvalueWF, valOK_iff] at hvwf
          exact hvwf.1
        exact ⟨_, by rw [encodeElemsL, encodeKeyValue_ok hkne hkle hsle, exceptBind_ok,
          henc', exceptBind_ok]; rfl⟩
      | vlist l =>
        have hl : ∀ item ∈ l, valOK item = true := by
          rw [mvalueWF] at hvwf
          simpa [List.all_eq_true] using hvwf
        obtain ⟨ei, hei⟩ := encodeListItems_ok_of_wf l hl
        exact ⟨_, by rw [encodeElemsL, encodeList_ok hkne hkle hei, exceptBind_ok,
          henc', exceptBind_ok]; rfl⟩
      | vsect ks ds2 =>
        have hcanon : dataKeys ds2 = ks ∧ dataWF ds2 = true := by
          rw [mvalueWF] at hvwf
          simp only [Bool.and_eq_true, decide_eq_true_eq] at hvwf
          exact hvwf
        have hsz2 : sizeOf ds2 ≤ n := by simp at hsz; omega
        obtain ⟨es, hes⟩ := ih ds2 hsz2 hcanon.2
        exact ⟨_, by rw [encodeElemsL, encodeKey_ok hkne hkle, exceptBind_ok, hes,
          exceptBind_ok, henc', exceptBind_ok]; rfl⟩

/-- Full round trip: encoding a well-formed message succeeds, and
decoding the result recovers the message (keys, data, and header, the
header's sequence number being reset to zero by `decode`). -/
theorem encode_then_decode {m : Message} {h : Header} (hwf : m.wf = true)
    (hh : m.header = some h) :
    ∃ bytes, m.encode = .ok bytes ∧
      Message.decode bytes = .ok ⟨some ⟨h.ptype, h.name, 0⟩, m.keys, m.data⟩ := by
  rw [Message.wf] at hwf
  simp only [Bool.and_eq_true, decide_eq_true_eq] at hwf
  obtain ⟨⟨hhdr, hcanon⟩, hdata⟩ := hwf
  rw [hh, headerWF] at hhdr
  simp only [Bool.and_eq_true, decide_eq_true_eq] at hhdr
  obtain ⟨hpt, hname⟩ := hhdr
  obtain ⟨body, hbody⟩ := encodeElemsL_ok_of_wf (sizeOf m.data) m.data le_rfl hdata
  have henceq : encodeElements m.keys m.data = encodeElemsL m.data := by
    rw [← hcanon]
    have := encodeElements_eq_encodeElemsL (sizeOf m.data) [] m.data le_rfl
      (by simpa using dataWF_imp_shape (sizeOf m.data) m.data le_rfl hdata)
    simpa using this
  have hnamed : m.packetIsNamed = ptypeNamed h.ptype := by
    rw [Message.packetIsNamed, hh]
  have hvalid : m.packetIsValid = true := by
    rcases hpn : ptypeNamed h.ptype with _ | _
    · have hnm : m.packetIsNamed = false := by rw [hnamed, hpn]
      rw [Message.packetIsValid, hh]
      simp [hnm, hpt]
    · rw [hpn] at hname
      obtain ⟨hne, -, -⟩ := keyOK_iff.mp hname
      rw [Message.packetIsValid, hh]
      simp [hpt, hne]
  have hloop : ∀ hdr : Option Header,
      decodeLoop (body.length + 1) ⟨hdr, [], []⟩ body =
        .ok ⟨hdr, m.keys, m.data⟩ := by
    intro hdr
    have := decodeLoop_encode m.data hdata ⟨hdr, [], []⟩ body (body.length + 1) hbody
      (by intro k' _; simp [dataLookup]) (by omega)
    simpa [hcanon] using this
  rw [Message.encode, hvalid]
  simp only [Bool.not_true, Bool.false_eq_true, if_false, hh, reduceIte]
  rcases hpn : ptypeNamed h.ptype with _ | _
  · -- un-named packet: no name on the wire, and well-formedness forces
    -- the header name to be empty
    rw [hpn] at hname
    have hnm : h.name = [] := by simpa using hname
    rw [hnamed, hpn]
    simp only [Bool.false_eq_true, if_false, exceptBind_ok, hbody, henceq, exceptPure,
      exceptBind_ok]
    refine ⟨h.ptype :: ([] ++ body), rfl, ?_⟩
    rw [Message.decode]
    rw [if_neg (by simp only [pktInvalid] at hpt ⊢; omega), if_neg (by simp [hpn])]
    simp only [List.nil_append]
    rw [hloop]
    rw [hnm]
  · rw [hpn] at hname
    obtain ⟨hne, hle, -⟩ := keyOK_iff.mp hname
    rw [hnamed, hpn]
    simp only [if_true, encodeKey_ok hne hle, exceptBind_ok, henceq, hbody, exceptPure]
    refine ⟨_, rfl, ?_⟩
    rw [Message.decode]
    rw [if_neg (by simp only [pktInvalid] at hpt ⊢; omega), if_pos (by simp [hpn])]
    simp only [List.cons_append, List.append_assoc, List.nil_append]
    rw [decodeKey_encode hne, exceptBind_ok]
    rw [hloop]

/-! ## Length safety (encode) -/

mutual

/-- The claim-side predicate of the length-safety claim: the value
contains, at some level, a scalar or list item longer than 65535 bytes
or (inside a section) a key longer than 255 bytes. -/
def mvalueOversize : MValue → Bool
  | .vstr s => decide (s.length > 65535)
  | .vlist l => l.any fun s => decide (s.length > 65535)
  | .vsect _ ds => dataOversize ds

/-- The data map contains, at some level, a key longer than 255 bytes
or a scalar / list item longer than 65535 bytes. -/
def dataOversize : List (Bytes × MValue) → Bool
  | [] => false
  | (k, v) :: rest => decide (k.length > 255) || mvalueOversize v || dataOversize rest

end

theorem encodeListItems_ok_bounds :
    ∀ {l : List Bytes} {out : Bytes}, encodeListItems l = .ok out →
      ∀ item ∈ l, item.length ≤ 65535 := by
  intro l
  induction l with
  | nil => intro out _ item h; cases h
  | cons hd tl ih =>
    intro out h item hm
    rw [encodeListItems] at h
    cases hv : encodeValue hd with
    | error e => rw [hv, exceptBind_err] at h; cases h
    | ok ev =>
      rw [hv, exceptBind_ok] at h
      cases hr : encodeListItems tl with
      | error e => rw [hr, exceptBind_err] at h; cases h
      | ok er =>
        rcases List.mem_cons.mp hm with rfl | hm
        · exact (encodeValue_ok_iff.mp hv).1
        · exact ih hr item hm

theorem encodeKeyValue_ok_bounds {k s out : Bytes} (h : encodeKeyValue k s = .ok out) :
    k ≠ [] ∧ k.length ≤ 255 ∧ s.length ≤ 65535 := by
  rw [encodeKeyValue] at h
  cases hk : encodeKey k with
  | error e => rw [hk, exceptBind_err] at h; cases h
  | ok kk =>
    rw [hk, exceptBind_ok] at h
    cases hv : encodeValue s with
    | error e => rw [hv, exceptBind_err] at h; cases h
    | ok vv =>
      obtain ⟨h1, h2, -⟩ := encodeKey_ok_iff.mp hk
      exact ⟨h1, h2, (encodeValue_ok_iff.mp hv).1⟩

/-- A successful encoding implies that no key or value exceeds its
length-field width at any level: the encoder never truncates. -/
theorem encodeElemsL_ok_no_oversize :
    ∀ (n : Nat) (ds : List (Bytes × MValue)), sizeOf ds ≤ n →
      ∀ {enc : Bytes}, encodeElemsL ds = .ok enc → dataOversize ds = false := by
  intro n
  induction n with
  | zero =>
    intro ds hsz
    exact absurd hsz (by cases ds <;> simp)
  | succ n ih =>
    intro ds hsz enc henc
    cases ds with
    | nil => rw [dataOversize]
    | cons hd dt =>
      obtain ⟨k, v⟩ := hd
      have hszdt : sizeOf dt ≤ n := by simp at hsz; omega
      rw [dataOversize]
      cases v with
      | vstr s =>
        rw [encodeElemsL] at henc
        cases hkv : encodeKeyValue k s with
        | error e => rw [hkv, exceptBind_err] at henc; cases henc
        | ok e =>
          rw [hkv, exceptBind_ok] at henc
          cases henc' : encodeElemsL dt with
          | error e2 => rw [henc', exceptBind_err] at henc; cases henc
          | ok enc' =>
            obtain ⟨-, hk, hs⟩ := encodeKeyValue_ok_bounds hkv
            rw [ih dt hszdt henc', mvalueOversize]
            simp [Nat.not_lt.mpr hk, Nat.not_lt.mpr hs]
      | vlist l =>
        rw [encodeElemsL] at henc
        cases hel : encodeList k l with
        | error e => rw [hel, exceptBind_err] at henc; cases henc
        | ok e =>
          rw [hel, exceptBind_ok] at henc
          cases henc' : encodeElemsL dt with
          | error e2 => rw [henc', exceptBind_err] at henc; cases henc
          | ok enc' =>
            rw [encodeList] at hel
            cases hk : encodeKey k with
            | error e2 => rw [hk, exceptBind_err] at hel; cases hel
            | ok kk =>
              rw [hk, exceptBind_ok] at hel
              cases hi : encodeListItems l with
              | error e2 => rw [hi, exceptBind_err] at hel; cases hel
              | ok ei =>
                obtain ⟨-, hkle, -⟩ := encodeKey_ok_iff.mp hk
                have hitems := encodeListItems_ok_bounds hi
                rw [ih dt hszdt henc', mvalueOversize]
                have h1 : decide (k.length > 255) = false := by
                  simp [Nat.not_lt.mpr hkle]
                have h2 : (l.any fun s => decide (s.length > 65535)) = false := by
                  simp only [List.any_eq_false, decide_eq_true_eq]
                  intro item him
                  exact Nat.not_lt.mpr (hitems item him)
                rw [h1, h2]
                rfl
      | vsect ks ds2 =>
        rw [encodeElemsL] at henc
        cases hk : encodeKey k with
        | error e => rw [hk, exceptBind_err] at henc; cases henc
        | ok kk =>
          rw [hk, exceptBind_ok] at henc
          cases hes : encodeElemsL ds2 with
          | error e => rw [hes, exceptBind_err] at henc; cases henc
          | ok es =>
            rw [hes, exceptBind_ok] at henc
            cases henc' : encodeElemsL dt with
            | error e2 => rw [henc', exceptBind_err] at henc; cases henc
            | ok enc' =>
              obtain ⟨-, hkle, -⟩ := encodeKey_ok_iff.mp hk
              have hsz2 : sizeOf ds2 ≤ n := by simp at hsz; omega
              rw [ih dt hszdt henc', mvalueOversize, ih ds2 hsz2 hes]
              simp [Nat.not_lt.mpr hkle]

theorem encodeKey_error_classify {k : Bytes} {e : EncErr} (hne : k ≠ [])
    (h : encodeKey k = .error e) : ∃ v lim, e = .valTooLong v lim := by
  rw [encodeKey, if_neg hne] at h
  unfold safePutUint8 at h
  split at h
  · rw [exceptBind_err] at h
    cases h
    exact ⟨_, _, rfl⟩
  · rw [exceptBind_ok, exceptPure] at h
    cases h

theorem encodeValue_error_classify {s : Bytes} {e : EncErr}
    (h : encodeValue s = .error e) : ∃ v lim, e = .valTooLong v lim := by
  rw [encodeValue] at h
  unfold safePutUint16 at h
  split at h
  · rw [exceptBind_err] at h
    cases h
    exact ⟨_, _, rfl⟩
  · rw [exceptBind_ok, exceptPure] at h
    cases h

theorem encodeListItems_error_classify :
    ∀ {l : List Bytes} {e : EncErr}, encodeListItems l = .error e →
      ∃ v lim, e = .valTooLong v lim := by
  intro l
  induction l with
  | nil => intro e h; rw [encodeListItems] at h; cases h
  | cons hd tl ih =>
    intro e h
    rw [encodeListItems] at h
    cases hv : encodeValue hd with
    | error e2 =>
      rw [hv, exceptBind_err] at h
      cases h
      exact encodeValue_error_classify hv
    | ok ev =>
      rw [hv, exceptBind_ok] at h
      cases hr : encodeListItems tl with
      | error e2 =>
        rw [hr, exceptBind_err] at h
        cases h
        exact ih hr
      | ok er =>
        rw [hr, exceptBind_ok, exceptPure] at h
        cases h

/-- On a shape-well-formed data map (keys non-empty and unique,
sections canonical), the only way `encodeElemsL` can fail is a
`val too long` size error from `safePutUint8`/`safePutUint16`. -/
theorem encodeElemsL_error_classify :
    ∀ (n : Nat) (ds : List (Bytes × MValue)), sizeOf ds ≤ n → dataShape ds = true →
      ∀ {e : EncErr}, encodeElemsL ds = .error e → ∃ v lim, e = .valTooLong v lim := by
  intro n
  induction n with
  | zero =>
    intro ds hsz
    exact absurd hsz (by cases ds <;> simp)
  | succ n ih =>
    intro ds hsz hshape e henc
    cases ds with
    | nil => rw [encodeElemsL] at henc; cases henc
    | cons hd dt =>
      obtain ⟨k, v⟩ := hd
      rw [dataShape] at hshape
      simp only [Bool.and_eq_true, decide_eq_true_eq] at hshape
      obtain ⟨⟨⟨hkne, hvs⟩, -⟩, hsdt⟩ := hshape
      have hszdt : sizeOf dt ≤ n := by simp at hsz; omega
      cases v with
      | vstr s =>
        rw [encodeElemsL, encodeKeyValue] at henc
        cases hk : encodeKey k with
        | error e2 =>
          rw [hk, exceptBind_err, exceptBind_err] at henc
          cases henc
          exact encodeKey_error_classify hkne hk
        | ok kk =>
          rw [hk, exceptBind_ok] at henc
          cases hv : encodeValue s with
          | error e2 =>
            rw [hv, exceptBind_err, exceptBind_err] at henc
            cases henc
            exact encodeValue_error_classify hv
          | ok vv =>
            rw [hv, exceptBind_ok, exceptPure, exceptBind_ok] at henc
            cases henc' : encodeElemsL dt with
            | error e2 =>
              rw [henc', exceptBind_err] at henc
              cases henc
              exact ih dt hszdt hsdt henc'
            | ok enc' =>
              rw [henc', exceptBind_ok, exceptPure] at henc
              cases henc
      | vlist l =>
        rw [encodeElemsL, encodeList] at henc
        cases hk : encodeKey k with
        | error e2 =>
          rw [hk, exceptBind_err, exceptBind_err] at henc
          cases henc
          exact encodeKey_error_classify hkne hk
        | ok kk =>
          rw [hk, exceptBind_ok] at henc
          cases hi : encodeListItems l with
          | error e2 =>
            rw [hi, exceptBind_err, exceptBind_err] at henc
            cases henc
            exact encodeListItems_error_classify hi
          | ok ei =>
            rw [hi, exceptBind_ok, exceptPure, exceptBind_ok] at henc
            cases henc' : encodeElemsL dt with
            | error e2 =>
              rw [henc', exceptBind_err] at henc
              cases henc
              exact ih dt hszdt hsdt henc'
            | ok enc' =>
              rw [henc', exceptBind_ok, exceptPure] at henc
              cases henc
      | vsect ks ds2 =>
        rw [mvalueShape] at hvs
        simp only [Bool.and_eq_true, decide_eq_true_eq] at hvs
        have hsz2 : sizeOf ds2 ≤ n := by simp at hsz; omega
        rw [encodeElemsL] at henc
        cases hk : encodeKey k with
        | error e2 =>
          rw [hk, exceptBind_err] at henc
          cases henc
          exact encodeKey_error_classify hkne hk
        | ok kk =>
          rw [hk, exceptBind_ok] at henc
          cases hes : encodeElemsL ds2 with
          | error e2 =>
            rw [hes, exceptBind_err] at henc
            cases henc
            exact ih ds2 hsz2 hvs.2 hes
          | ok es =>
            rw [hes, exceptBind_ok] at henc
            cases henc' : encodeElemsL dt with
            | error e2 =>
              rw [henc', exceptBind_err] at henc
              cases henc
              exact ih dt hszdt hsdt henc'
            | ok enc' =>
              rw [henc', exceptBind_ok, exceptPure] at henc
              cases henc

/-- Encoding a message that is shape-well-formed but contains an
oversized key or value fails with a `val too long` size error and
produces no bytes. -/
theorem encode_oversize_size_error {m : Message} {h : Header}
    (hh : m.header = some h)
    (hvalid : m.packetIsValid = true)
    (hcanon : dataKeys m.data = m.keys)
    (hshape : dataShape m.data = true)
    (hover : dataOversize m.data = true) :
    ∃ v lim, m.encode = .error (.valTooLong v lim) := by
  have henceq : encodeElements m.keys m.data = encodeElemsL m.data := by
    rw [← hcanon]
    have := encodeElements_eq_encodeElemsL (sizeOf m.data) [] m.data le_rfl
      (by simpa using hshape)
    simpa using this
  have hnamed : m.packetIsNamed = ptypeNamed h.ptype := by
    rw [Message.packetIsNamed, hh]
  rw [Message.encode, hvalid]
  simp only [Bool.not_true, Bool.false_eq_true, if_false, hh, reduceIte]
  rcases hpn : ptypeNamed h.ptype with _ | _
  · rw [hnamed, hpn]
    simp only [Bool.false_eq_true, if_false]
    cases hb : encodeElemsL m.data with
    | ok enc =>
      exact absurd hover
        (by rw [encodeElemsL_ok_no_oversize (sizeOf m.data) m.data le_rfl hb]; simp)
    | error e =>
      obtain ⟨v, lim, rfl⟩ :=
        encodeElemsL_error_classify (sizeOf m.data) m.data le_rfl hshape hb
      exact ⟨v, lim, by simp [exceptPure, exceptBind_ok, exceptBind_err, henceq, hb]⟩
  · rw [hnamed, hpn]
    simp only [if_true]
    have hne : h.name ≠ [] := by
      rw [Message.packetIsValid, hh] at hvalid
      simp only [decide_eq_true_eq] at hvalid
      exact hvalid.2 (by rw [hnamed, hpn])
    cases hk : encodeKey h.name with
    | error e =>
      obtain ⟨v, lim, rfl⟩ := encodeKey_error_classify hne hk
      exact ⟨v, lim, by simp [exceptBind_err]⟩
    | ok kk =>
      cases hb : encodeElemsL m.data with
      | ok enc =>
        exact absurd hover
          (by rw [encodeElemsL_ok_no_oversize (sizeOf m.data) m.data le_rfl hb]; simp)
      | error e =>
        obtain ⟨v, lim, rfl⟩ :=
          encodeElemsL_error_classify (sizeOf m.data) m.data le_rfl hshape hb
        exact ⟨v, lim, by simp [exceptBind_ok, exceptBind_err, henceq, hb]⟩

/-! ## Inverse direction: a successful decode is an exact encoding -/

theorem addItemUnique_some_inv {m : Message} {k : Bytes} {v : MValue} {m' : Message}
    (h : m.addItemUnique k v = some m') :
    dataLookup m.data k = none ∧ m' = ⟨m.header, m.keys ++ [k], m.data ++ [(k, v)]⟩ := by
  by_cases hl : (dataLookup m.data k).isSome
  · rw [addItemUnique_dup hl] at h
    cases h
  · have hn : dataLookup m.data k = none := by
      rwa [Option.not_isSome_iff_eq_none] at hl
    rw [addItemUnique_fresh hn] at h
    cases h
    exact ⟨hn, rfl⟩

theorem decodeKey_inv {buf k rest : Bytes} (h : decodeKey buf = .ok (k, rest))
    (hbytes : ∀ b ∈ buf, b < 256) :
    k ≠ [] ∧ k.length ≤ 255 ∧ buf = k.length :: (k ++ rest) := by
  match buf with
  | [] => simp [decodeKey] at h
  | n :: tl =>
    rw [decodeKey] at h
    split at h
    · cases h
    · rename_i hn0
      split at h
      · rename_i hlen
        cases h
        have hn : n < 256 := hbytes n (by simp)
        refine ⟨?_, by omega, ?_⟩
        · intro hk
          rw [hk] at hlen
          simp at hlen
          omega
        · rw [hlen, List.take_append_drop]
      · cases h

theorem decodeValue_inv {buf v rest : Bytes} (h : decodeValue buf = .ok (v, rest))
    (hbytes : ∀ b ∈ buf, b < 256) :
    v.length ≤ 65535 ∧ buf = v.length / 256 :: v.length % 256 :: (v ++ rest) := by
  match buf with
  | [] | [_] => simp [decodeValue] at h
  | b0 :: b1 :: tl =>
    rw [decodeValue] at h
    split at h
    · rename_i hlen
      cases h
      have h0 : b0 < 256 := hbytes b0 (by simp)
      have h1 : b1 < 256 := hbytes b1 (by simp)
      have hlen' : (tl.take (b0 * 256 + b1)).length = b0 * 256 + b1 := hlen
      constructor
      · omega
      · have hb0 : (tl.take (b0 * 256 + b1)).length / 256 = b0 := by omega
        have hb1 : (tl.take (b0 * 256 + b1)).length % 256 = b1 := by omega
        rw [hb0, hb1, List.take_append_drop]
    · cases h

theorem decodeListItems_inv :
    ∀ (N : Nat) (buf : Bytes), buf.length ≤ N →
      ∀ {items : List Bytes} {rest : Bytes},
        decodeListItems buf = .ok (items, rest) →
        (∀ b ∈ buf, b < 256) →
        ∃ ei, encodeListItems items = .ok ei ∧ buf = ei ++ msgListEnd :: rest ∧
          ∀ item ∈ items, valOK item = true := by
  intro N
  induction N with
  | zero =>
    intro buf hN items rest h _
    match buf, hN with
    | [], _ => simp [decodeListItems] at h
  | succ N ih =>
    intro buf hN items rest h hbytes
    match buf with
    | [] => simp [decodeListItems] at h
    | b :: tl =>
      rw [decodeListItems] at h
      split at h
      · rename_i hb
        cases h
        subst hb
        exact ⟨[], by rw [encodeListItems], by simp, by simp⟩
      · split at h
        · rename_i hbne hb
          subst hb
          split at h
          · cases h
          · rename_i v rest' hdv
            cases hrec : decodeListItems rest' with
            | error e =>
              rw [hrec] at h
              cases h
            | ok p =>
              obtain ⟨items', rest''⟩ := p
              rw [hrec, exceptBind_ok] at h
              dsimp only at h
              rw [exceptPure] at h
              cases h
              obtain ⟨hvle, htl⟩ := decodeValue_inv hdv (fun b hb => hbytes b (by simp [hb]))
              have hbytes' : ∀ b ∈ rest', b < 256 := by
                intro b hb
                refine hbytes b ?_
                rw [htl]
                simp [hb]
              have hlen' : rest'.length ≤ N := by
                have := congrArg List.length htl
                simp at this hN
                omega
              obtain ⟨ei', hei', hdec, hval⟩ := ih rest' hlen' hrec hbytes'
              refine ⟨msgListItem :: (v.length / 256 :: v.length % 256 :: v ++ ei'), ?_, ?_, ?_⟩
              · rw [encodeListItems, encodeValue_ok hvle, exceptBind_ok, hei', exceptBind_ok,
                  exceptPure]
              · rw [htl, hdec]
                simp
              · intro item him
                rcases List.mem_cons.mp him with rfl | him
                · rw [valOK_iff]
                  refine ⟨hvle, ?_⟩
                  intro b hb
                  refine hbytes b ?_
                  rw [htl]
                  simp [hb]
                · exact hval item him
        · cases h

/-- A successful run of the section-decoding loop consumes an exact
encoding of a well-formed data map followed by the section-end tag. -/
theorem decodeSectionElems_inv :
    ∀ (fuel : Nat) (sec : Message) (buf : Bytes) {res : Message} {rest : Bytes},
      decodeSectionElems fuel sec buf = .ok (res, rest) →
      (∀ b ∈ buf, b < 256) →
      ∃ ds enc, encodeElemsL ds = .ok enc ∧ buf = enc ++ msgSectionEnd :: rest ∧
        res = ⟨sec.header, sec.keys ++ dataKeys ds, sec.data ++ ds⟩ ∧
        dataWF ds = true ∧
        (∀ k ∈ dataKeys ds, dataLookup sec.data k = none) := by
  intro fuel
  induction fuel with
  | zero =>
    intro sec buf res rest h
    rw [decodeSectionElems] at h
    cases h
  | succ f ih =>
    intro sec buf res rest h hbytes
    match buf with
    | [] => rw [decodeSectionElems] at h; cases h
    | b :: tl =>
      rw [decodeSectionElems] at h
      split at h
      · rename_i hb
        cases h
        subst hb
        refine ⟨[], [], by rw [encodeElemsL], by simp, by simp [dataKeys], by rw [dataWF],
          by simp [dataKeys]⟩
      · split at h
        · rename_i hbne2 hb
          subst hb
          cases hdk : decodeKey tl with
          | error e => rw [hdk, exceptBind_err] at h; cases h
          | ok p =>
            obtain ⟨k, rest₁⟩ := p
            rw [hdk, exceptBind_ok] at h
            dsimp only at h
            cases hdv : decodeValue rest₁ with
            | error e => rw [hdv, exceptBind_err] at h; cases h
            | ok q =>
              obtain ⟨v, rest₂⟩ := q
              rw [hdv, exceptBind_ok] at h
              dsimp only at h
              cases haiu : sec.addItemUnique k (.vstr v) with
              | none => rw [haiu] at h; cases h
              | some sec' =>
                rw [haiu] at h
                obtain ⟨hkne, hkle, htl⟩ := decodeKey_inv hdk
                  (fun x hx => hbytes x (by simp [hx]))
                have hbr₁ : ∀ x ∈ rest₁, x < 256 := by
                  intro x hx
                  refine hbytes x ?_
                  rw [htl]
                  simp [hx]
                obtain ⟨hvle, hrest₁⟩ := decodeValue_inv hdv hbr₁
                have hbr₂ : ∀ x ∈ rest₂, x < 256 := by
                  intro x hx
                  refine hbr₁ x ?_
                  rw [hrest₁]
                  simp [hx]
                obtain ⟨hfreshk, hsec'⟩ := addItemUnique_some_inv haiu
                subst hsec'
                obtain ⟨ds', enc', hei', hbuf', hres, hwf', hfresh'⟩ := ih _ rest₂ h hbr₂
                have hknotds' : k ∉ dataKeys ds' := by
                  intro hk
                  have := hfresh' k hk
                  rw [dataLookup_append_none] at this
                  simp [dataLookup] at this
                refine ⟨(k, .vstr v) :: ds',
                  (msgKeyValue :: ((k.length :: k) ++
                    (v.length / 256 :: v.length % 256 :: v))) ++ enc', ?_, ?_, ?_, ?_, ?_⟩
                · rw [encodeElemsL, encodeKeyValue_ok hkne hkle hvle, exceptBind_ok, hei',
                    exceptBind_ok, exceptPure]
                · rw [htl, hrest₁, hbuf']
                  simp
                · rw [hres]
                  simp [dataKeys, List.append_assoc]
                · rw [dataWF]
                  simp only [Bool.and_eq_true]
                  refine ⟨⟨⟨?_, ?_⟩, ?_⟩, hwf'⟩
                  · rw [keyOK_iff]
                    refine ⟨hkne, hkle, ?_⟩
                    intro x hx
                    refine hbytes x ?_
                    rw [htl]
                    simp [hx]
                  · rw [mvalueWF, valOK_iff]
                    refine ⟨hvle, ?_⟩
                    intro x hx
                    refine hbr₁ x ?_
                    rw [hrest₁]
                    simp [hx]
                  · rw [Option.isNone_iff_eq_none, dataLookup_eq_none_iff]
                    exact hknotds'
                · intro k' hk'
                  rcases mem_dataKeys_cons.mp hk' with rfl | hk'
                  · exact hfreshk
                  · exact ((dataLookup_append_none).mp (hfresh' k' hk')).1
        · split at h
          · rename_i hbne2 hbne3 hb
            subst hb
            cases hdk : decodeKey tl with
            | error e => rw [hdk, exceptBind_err] at h; cases h
            | ok p =>
              obtain ⟨k, rest₁⟩ := p
              rw [hdk, exceptBind_ok] at h
              dsimp only at h
              cases hdl : decodeListItems rest₁ with
              | error e => rw [hdl, exceptBind_err] at h; cases h
              | ok q =>
                obtain ⟨items, rest₂⟩ := q
                rw [hdl, exceptBind_ok] at h
                dsimp only at h
                cases haiu : sec.addItemUnique k (.vlist items) with
                | none => rw [haiu] at h; cases h
                | some sec' =>
                  rw [haiu] at h
                  obtain ⟨hkne, hkle, htl⟩ := decodeKey_inv hdk
                    (fun x hx => hbytes x (by simp [hx]))
                  have hbr₁ : ∀ x ∈ rest₁, x < 256 := by
                    intro x hx
                    refine hbytes x ?_
                    rw [htl]
                    simp [hx]
                  obtain ⟨ei, hei, hrest₁, hval⟩ :=
                    decodeListItems_inv rest₁.length rest₁ le_rfl hdl hbr₁
                  have hbr₂ : ∀ x ∈ rest₂, x < 256 := by
                    intro x hx
                    refine hbr₁ x ?_
                    rw [hrest₁]
                    simp [hx]
                  obtain ⟨hfreshk, hsec'⟩ := addItemUnique_some_inv haiu
                  subst hsec'
                  obtain ⟨ds', enc', hei', hbuf', hres, hwf', hfresh'⟩ := ih _ rest₂ h hbr₂
                  have hknotds' : k ∉ dataKeys ds' := by
                    intro hk
                    have := hfresh' k hk
                    rw [dataLookup_append_none] at this
                    simp [dataLookup] at this
                  refine ⟨(k, .vlist items) :: ds',
                    (msgListStart :: ((k.length :: k) ++ ei ++ [msgListEnd])) ++ enc',
                    ?_, ?_, ?_, ?_, ?_⟩
                  · rw [encodeElemsL, encodeList_ok hkne hkle hei, exceptBind_ok, hei',
                      exceptBind_ok, exceptPure]
                  · rw [htl, hrest₁, hbuf']
                    simp
                  · rw [hres]
                    simp [dataKeys, List.append_assoc]
                  · rw [dataWF]
                    simp only [Bool.and_eq_true]
                    refine ⟨⟨⟨?_, ?_⟩, ?_⟩, hwf'⟩
                    · rw [keyOK_iff]
                      refine ⟨hkne, hkle, ?_⟩
                      intro x hx
                      refine hbytes x ?_
                      rw [htl]
                      simp [hx]
                    · rw [mvalueWF]
                      simp only [List.all_eq_true]
                      intro item him
                      exact hval item him
                    · rw [Option.isNone_iff_eq_none, dataLookup_eq_none_iff]
                      exact hknotds'
                  · intro k' hk'
                    rcases mem_dataKeys_cons.mp hk' with rfl | hk'
                    · exact hfreshk
                    · exact ((dataLookup_append_none).mp (hfresh' k' hk')).1
          · split at h
            · rename_i hbne2 hbne3 hbne4 hb
              subst hb
              cases hdk : decodeKey tl with
              | error e => rw [hdk, exceptBind_err] at h; cases h
              | ok p =>
                obtain ⟨k, rest₁⟩ := p
                rw [hdk, exceptBind_ok] at h
                dsimp only at h
                cases hsub : decodeSectionElems f NewMessage rest₁ with
                | error e => rw [hsub, exceptBind_err] at h; cases h
                | ok q =>
                  obtain ⟨sub, rest₂⟩ := q
                  rw [hsub, exceptBind_ok] at h
                  dsimp only at h
                  cases haiu : sec.addItemUnique k (.vsect sub.keys sub.data) with
                  | none => rw [haiu] at h; cases h
                  | some sec' =>
                    rw [haiu] at h
                    obtain ⟨hkne, hkle, htl⟩ := decodeKey_inv hdk
                      (fun x hx => hbytes x (by simp [hx]))
                    have hbr₁ : ∀ x ∈ rest₁, x < 256 := by
                      intro x hx
                      refine hbytes x ?_
                      rw [htl]
                      simp [hx]
                    obtain ⟨ds2, es, hes, hrest₁, hsubeq, hwf2, -⟩ := ih NewMessage rest₁ hsub hbr₁
                    have hbr₂ : ∀ x ∈ rest₂, x < 256 := by
                      intro x hx
                      refine hbr₁ x ?_
                      rw [hrest₁]
                      simp [hx]
                    have hsubkeys : sub.keys = dataKeys ds2 := by
                      rw [hsubeq]
                      simp [NewMessage]
                    have hsubdata : sub.data = ds2 := by
                      rw [hsubeq]
                      simp [NewMessage]
                    obtain ⟨hfreshk, hsec'⟩ := addItemUnique_some_inv haiu
                    subst hsec'
                    obtain ⟨ds', enc', hei', hbuf', hres, hwf', hfresh'⟩ := ih _ rest₂ h hbr₂
                    have hknotds' : k ∉ dataKeys ds' := by
                      intro hk
                      have := hfresh' k hk
                      rw [dataLookup_append_none] at this
                      simp [dataLookup] at this
                    refine ⟨(k, .vsect sub.keys sub.data) :: ds',
                      (msgSectionStart :: ((k.length :: k) ++ es ++ [msgSectionEnd])) ++ enc',
                      ?_, ?_, ?_, ?_, ?_⟩
                    · rw [encodeElemsL, encodeKey_ok hkne hkle, exceptBind_ok, hsubdata, hes,
                        exceptBind_ok, hei', exceptBind_ok, exceptPure]
                    · rw [htl, hrest₁, hbuf']
                      simp
                    · rw [hres]
                      simp [dataKeys, List.append_assoc]
                    · rw [dataWF]
                      simp only [Bool.and_eq_true]
                      refine ⟨⟨⟨?_, ?_⟩, ?_⟩, hwf'⟩
                      · rw [keyOK_iff]
                        refine ⟨hkne, hkle, ?_⟩
                        intro x hx
                        refine hbytes x ?_
                        rw [htl]
                        simp [hx]
                      · rw [mvalueWF, hsubkeys, hsubdata]
                        simp [hwf2]
                      · rw [Option.isNone_iff_eq_none, dataLookup_eq_none_iff]
                        exact hknotds'
                    · intro k' hk'
                      rcases mem_dataKeys_cons.mp hk' with rfl | hk'
                      · exact hfreshk
                      · exact ((dataLookup_append_none).mp (hfresh' k' hk')).1
            · cases h

/-- A successful run of the top-level decoding loop consumes an exact
encoding of a well-formed data map. -/
theorem decodeLoop_inv :
    ∀ (fuel : Nat) (m : Message) (buf : Bytes) {res : Message},
      decodeLoop fuel m buf = .ok res →
      (∀ b ∈ buf, b < 256) →
      ∃ ds, encodeElemsL ds = .ok buf ∧
        res = ⟨m.header, m.keys ++ dataKeys ds, m.data ++ ds⟩ ∧
        dataWF ds = true ∧
        (∀ k ∈ dataKeys ds, dataLookup m.data k = none) := by
  intro fuel
  induction fuel with
  | zero =>
    intro m buf res h
    rw [decodeLoop] at h
    cases h
  | succ f ih =>
    intro m buf res h hbytes
    match buf with
    | [] =>
      rw [decodeLoop] at h
      cases h
      exact ⟨[], by rw [encodeElemsL], by simp [dataKeys], by rw [dataWF], by simp [dataKeys]⟩
    | b :: tl =>
      rw [decodeLoop] at h
      split at h
      · rename_i hb
        subst hb
        cases hdk : decodeKey tl with
        | error e => rw [hdk, exceptBind_err] at h; cases h
        | ok p =>
          obtain ⟨k, rest₁⟩ := p
          rw [hdk, exceptBind_ok] at h
          dsimp only at h
          cases hdv : decodeValue rest₁ with
          | error e => rw [hdv, exceptBind_err] at h; cases h
          | ok q =>
            obtain ⟨v, rest₂⟩ := q
            rw [hdv, exceptBind_ok] at h
            dsimp only at h
            cases haiu : m.addItemUnique k (.vstr v) with
            | none => rw [haiu] at h; cases h
            | some m' =>
              rw [haiu] at h
              obtain ⟨hkne, hkle, htl⟩ := decodeKey_inv hdk
                (fun x hx => hbytes x (by simp [hx]))
              have hbr₁ : ∀ x ∈ rest₁, x < 256 := by
                intro x hx
                refine hbytes x ?_
                rw [htl]
                simp [hx]
              obtain ⟨hvle, hrest₁⟩ := decodeValue_inv hdv hbr₁
              have hbr₂ : ∀ x ∈ rest₂, x < 256 := by
                intro x hx
                refine hbr₁ x ?_
                rw [hrest₁]
                simp [hx]
              obtain ⟨hfreshk, hm'⟩ := addItemUnique_some_inv haiu
              subst hm'
              obtain ⟨ds', hei', hres, hwf', hfresh'⟩ := ih _ rest₂ h hbr₂
              have hknotds' : k ∉ dataKeys ds' := by
                intro hk
                have := hfresh' k hk
                rw [dataLookup_append_none] at this
                simp [dataLookup] at this
              refine ⟨(k, .vstr v) :: ds', ?_, ?_, ?_, ?_⟩
              · rw [encodeElemsL, encodeKeyValue_ok hkne hkle hvle, exceptBind_ok, hei',
                  exceptBind_ok, exceptPure, htl, hrest₁]
                simp
              · rw [hres]
                simp [dataKeys, List.append_assoc]
              · rw [dataWF]
                simp only [Bool.and_eq_true]
                refine ⟨⟨⟨?_, ?_⟩, ?_⟩, hwf'⟩
                · rw [keyOK_iff]
                  refine ⟨hkne, hkle, ?_⟩
                  intro x hx
                  refine hbytes x ?_
                  rw [htl]
                  simp [hx]
                · rw [mvalueWF, valOK_iff]
                  refine ⟨hvle, ?_⟩
                  intro x hx
                  refine hbr₁ x ?_
                  rw [hrest₁]
                  simp [hx]
                · rw [Option.isNone_iff_eq_none, dataLookup_eq_none_iff]
                  exact hknotds'
              · intro k' hk'
                rcases mem_dataKeys_cons.mp hk' with rfl | hk'
                · exact hfreshk
                · exact ((dataLookup_append_none).mp (hfresh' k' hk')).1
      · split at h
        · rename_i hbne1 hb
          subst hb
          cases hdk : decodeKey tl with
          | error e => rw [hdk, exceptBind_err] at h; cases h
          | ok p =>
            obtain ⟨k, rest₁⟩ := p
            rw [hdk, exceptBind_ok] at h
            dsimp only at h
            cases hdl : decodeListItems rest₁ with
            | error e => rw [hdl, exceptBind_err] at h; cases h
            | ok q =>
              obtain ⟨items, rest₂⟩ := q
              rw [hdl, exceptBind_ok] at h
              dsimp only at h
              cases haiu : m.addItemUnique k (.vlist items) with
              | none => rw [haiu] at h; cases h
              | some m' =>
                rw [haiu] at h
                obtain ⟨hkne, hkle, htl⟩ := decodeKey_inv hdk
                  (fun x hx => hbytes x (by simp [hx]))
                have hbr₁ : ∀ x ∈ rest₁, x < 256 := by
                  intro x hx
                  refine hbytes x ?_
                  rw [htl]
                  simp [hx]
                obtain ⟨ei, hei, hrest₁, hval⟩ :=
                  decodeListItems_inv rest₁.length rest₁ le_rfl hdl hbr₁
                have hbr₂ : ∀ x ∈ rest₂, x < 256 := by
                  intro x hx
                  refine hbr₁ x ?_
                  rw [hrest₁]
                  simp [hx]
                obtain ⟨hfreshk, hm'⟩ := addItemUnique_some_inv haiu
                subst hm'
                obtain ⟨ds', hei', hres, hwf', hfresh'⟩ := ih _ rest₂ h hbr₂
                have hknotds' : k ∉ dataKeys ds' := by
                  intro hk
                  have := hfresh' k hk
                  rw [dataLookup_append_none] at this
                  simp [dataLookup] at this
                refine ⟨(k, .vlist items) :: ds', ?_, ?_, ?_, ?_⟩
                · rw [encodeElemsL, encodeList_ok hkne hkle hei, exceptBind_ok, hei',
                    exceptBind_ok, exceptPure, htl, hrest₁]
                  simp
                · rw [hres]
                  simp [dataKeys, List.append_assoc]
                · rw [dataWF]
                  simp only [Bool.and_eq_true]
                  refine ⟨⟨⟨?_, ?_⟩, ?_⟩, hwf'⟩
                  · rw [keyOK_iff]
                    refine ⟨hkne, hkle, ?_⟩
                    intro x hx
                    refine hbytes x ?_
                    rw [htl]
                    simp [hx]
                  · rw [mvalueWF]
                    simp only [List.all_eq_true]
                    intro item him
                    exact hval item him
                  · rw [Option.isNone_iff_eq_none, dataLookup_eq_none_iff]
                    exact hknotds'
                · intro k' hk'
                  rcases mem_dataKeys_cons.mp hk' with rfl | hk'
                  · exact hfreshk
                  · exact ((dataLookup_append_none).mp (hfresh' k' hk')).1
        · split at h
          · rename_i hbne1 hbne2 hb
            subst hb
            cases hdk : decodeKey tl with
            | error e => rw [hdk, exceptBind_err] at h; cases h
            | ok p =>
              obtain ⟨k, rest₁⟩ := p
              rw [hdk, exceptBind_ok] at h
              dsimp only at h
              cases hsub : decodeSectionElems f NewMessage rest₁ with
              | error e => rw [hsub, exceptBind_err] at h; cases h
              | ok q =>
                obtain ⟨sub, rest₂⟩ := q
                rw [hsub, exceptBind_ok] at h
                dsimp only at h
                cases haiu : m.addItemUnique k (.vsect sub.keys sub.data) with
                | none => rw [haiu] at h; cases h
                | some m' =>
                  rw [haiu] at h
                  obtain ⟨hkne, hkle, htl⟩ := decodeKey_inv hdk
                    (fun x hx => hbytes x (by simp [hx]))
                  have hbr₁ : ∀ x ∈ rest₁, x < 256 := by
                    intro x hx
                    refine hbytes x ?_
                    rw [htl]
                    simp [hx]
                  obtain ⟨ds2, es, hes, hrest₁, hsubeq, hwf2, -⟩ :=
                    decodeSectionElems_inv f NewMessage rest₁ hsub hbr₁
                  have hbr₂ : ∀ x ∈ rest₂, x < 256 := by
                    intro x hx
                    refine hbr₁ x ?_
                    rw [hrest₁]
                    simp [hx]
                  have hsubkeys : sub.keys = dataKeys ds2 := by
                    rw [hsubeq]
                    simp [NewMessage]
                  have hsubdata : sub.data = ds2 := by
                    rw [hsubeq]
                    simp [NewMessage]
                  obtain ⟨hfreshk, hm'⟩ := addItemUnique_some_inv haiu
                  subst hm'
                  obtain ⟨ds', hei', hres, hwf', hfresh'⟩ := ih _ rest₂ h hbr₂
                  have hknotds' : k ∉ dataKeys ds' := by
                    intro hk
                    have := hfresh' k hk
                    rw [dataLookup_append_none] at this
                    simp [dataLookup] at this
                  refine ⟨(k, .vsect sub.keys sub.data) :: ds', ?_, ?_, ?_, ?_⟩
                  · rw [encodeElemsL, encodeKey_ok hkne hkle, exceptBind_ok, hsubdata, hes,
                      exceptBind_ok, hei', exceptBind_ok, exceptPure, htl, hrest₁]
                    simp
                  · rw [hres]
                    simp [dataKeys, List.append_assoc]
                  · rw [dataWF]
                    simp only [Bool.and_eq_true]
                    refine ⟨⟨⟨?_, ?_⟩, ?_⟩, hwf'⟩
                    · rw [keyOK_iff]
                      refine ⟨hkne, hkle, ?_⟩
                      intro x hx
                      refine hbytes x ?_
                      rw [htl]
                      simp [hx]
                    · rw [mvalueWF, hsubkeys, hsubdata]
                      simp [hwf2]
                    · rw [Option.isNone_iff_eq_none, dataLookup_eq_none_iff]
                      exact hknotds'
                  · intro k' hk'
                    rcases mem_dataKeys_cons.mp hk' with rfl | hk'
                    · exact hfreshk
                    · exact ((dataLookup_append_none).mp (hfresh' k' hk')).1
          · cases h

/-- A successful decode of a byte buffer yields a well-formed message
whose encoding is exactly that buffer: `decode` accepts nothing but
exact encodings. -/
theorem decode_inv {data : Bytes} {m : Message}
    (h : Message.decode data = .ok m) (hbytes : ∀ b ∈ data, b < 256) :
    m.encode = .ok data ∧ m.wf = true := by
  match data with
  | [] => rw [Message.decode] at h; cases h
  | b :: rest =>
    rw [Message.decode] at h
    split at h
    · cases h
    · rename_i hblt
      have hb8 : b < 8 := by
        simp only [pktInvalid] at hblt
        omega
      split at h
      · rename_i hnamed
        cases hdk : decodeKey rest with
        | error e => rw [hdk, exceptBind_err] at h; cases h
        | ok p =>
          obtain ⟨name, rest₁⟩ := p
          rw [hdk, exceptBind_ok] at h
          dsimp only at h
          obtain ⟨hnne, hnle, hrest⟩ := decodeKey_inv hdk
            (fun x hx => hbytes x (by simp [hx]))
          have hbr₁ : ∀ x ∈ rest₁, x < 256 := by
            intro x hx
            refine hbytes x ?_
            rw [hrest]
            simp [hx]
          obtain ⟨ds, hds, hm, hwf, -⟩ := decodeLoop_inv _ _ rest₁ h hbr₁
          have hmk : m.keys = dataKeys ds := by rw [hm]; simp
          have hmd : m.data = ds := by rw [hm]; simp
          have hmh : m.header = some ⟨b, name, 0⟩ := by rw [hm]
          have hnb : ∀ x ∈ name, x < 256 := by
            intro x hx
            refine hbytes x ?_
            rw [hrest]
            simp [hx]
          have hwfm : m.wf = true := by
            rw [Message.wf, hmh, hmk, hmd, headerWF]
            simp [hb8, pktInvalid, hnamed, keyOK_iff, hnne, hnle, hwf]
            exact hnb
          refine ⟨?_, hwfm⟩
          have hvalid : m.packetIsValid = true := by
            rw [Message.packetIsValid, hmh]
            have : (Message.packetIsNamed m) = true := by
              rw [Message.packetIsNamed, hmh]
              exact hnamed
            simp [hb8, pktInvalid, this, hnne]
          rw [Message.encode, hvalid]
          simp only [Bool.not_true, Bool.false_eq_true, if_false, hmh]
          have hn : m.packetIsNamed = true := by
            rw [Message.packetIsNamed, hmh]
            exact hnamed
          rw [hn]
          simp only [if_true, encodeKey_ok hnne hnle, exceptBind_ok]
          have henceq : encodeElements m.keys m.data = encodeElemsL ds := by
            rw [hmk, hmd]
            have := encodeElements_eq_encodeElemsL (sizeOf ds) [] ds le_rfl
              (by simpa using dataWF_imp_shape (sizeOf ds) ds le_rfl hwf)
            simpa using this
          rw [henceq, hds, exceptBind_ok, exceptPure, hrest]
          simp
      · rename_i hnamed
        obtain ⟨ds, hds, hm, hwf, -⟩ := decodeLoop_inv _ _ rest h
          (fun x hx => hbytes x (by simp [hx]))
        have hmk : m.keys = dataKeys ds := by rw [hm]; simp
        have hmd : m.data = ds := by rw [hm]; simp
        have hmh : m.header = some ⟨b, [], 0⟩ := by rw [hm]
        have hwfm : m.wf = true := by
          rw [Message.wf, hmh, hmk, hmd, headerWF]
          simp [hb8, pktInvalid, hnamed, hwf]
        refine ⟨?_, hwfm⟩
        have hnm : m.packetIsNamed = false := by
          rw [Message.packetIsNamed, hmh]
          simpa using hnamed
        have hvalid : m.packetIsValid = true := by
          rw [Message.packetIsValid, hmh]
          simp [hb8, pktInvalid, hnm]
        rw [Message.encode, hvalid]
        simp only [Bool.not_true, Bool.false_eq_true, if_false, hmh, hnm]
        have henceq : encodeElements m.keys m.data = encodeElemsL ds := by
          rw [hmk, hmd]
          have := encodeElements_eq_encodeElemsL (sizeOf ds) [] ds le_rfl
            (by simpa using dataWF_imp_shape (sizeOf ds) ds le_rfl hwf)
          simpa using this
        simp [exceptPure, exceptBind_ok, henceq, hds]

/-! ## Key uniqueness of decoded messages -/

mutual

/-- Keys are unique at every level of a value. -/
def mvalueKeysUnique : MValue → Bool
  | .vstr _ => true
  | .vlist _ => true
  | .vsect _ ds => dataKeysUnique ds

/-- Keys are unique at every level of a data map. -/
def dataKeysUnique : List (Bytes × MValue) → Bool
  | [] => true
  | (k, v) :: rest =>
    (dataLookup rest k).isNone && mvalueKeysUnique v && dataKeysUnique rest

end

theorem dataWF_imp_keysUnique :
    ∀ (n : Nat) (ds : List (Bytes × MValue)), sizeOf ds ≤ n → dataWF ds = true →
      dataKeysUnique ds = true := by
  intro n
  induction n with
  | zero =>
    intro ds hsz
    exact absurd hsz (by cases ds <;> simp)
  | succ n ih =>
    intro ds hsz hwf
    cases ds with
    | nil => rw [dataKeysUnique]
    | cons hd dt =>
      obtain ⟨k, v⟩ := hd
      rw [dataWF] at hwf
      simp only [Bool.and_eq_true] at hwf
      obtain ⟨⟨⟨-, hvwf⟩, hnone⟩, hwfdt⟩ := hwf
      have hvu : mvalueKeysUnique v = true := by
        cases v with
        | vstr s => rw [mvalueKeysUnique]
        | vlist l => rw [mvalueKeysUnique]
        | vsect ks ds2 =>
          rw [mvalueWF] at hvwf
          simp only [Bool.and_eq_true, decide_eq_true_eq] at hvwf
          rw [mvalueKeysUnique]
          refine ih ds2 ?_ hvwf.2
          simp at hsz
          omega
      rw [dataKeysUnique]
      simp only [Bool.and_eq_true]
      refine ⟨⟨hnone, hvu⟩, ih dt ?_ hwfdt⟩
      simp at hsz
      omega

theorem dataWF_keys_nodup :
    ∀ (ds : List (Bytes × MValue)), dataWF ds = true → (dataKeys ds).Nodup := by
  intro ds
  induction ds with
  | nil => intro _; simp [dataKeys]
  | cons hd dt ih =>
    obtain ⟨k, v⟩ := hd
    intro hwf
    rw [dataWF] at hwf
    simp only [Bool.and_eq_true] at hwf
    obtain ⟨⟨-, hnone⟩, hwfdt⟩ := hwf
    rw [show dataKeys ((k, v) :: dt) = k :: dataKeys dt from by simp [dataKeys]]
    refine List.nodup_cons.mpr ⟨?_, ih hwfdt⟩
    rw [← dataLookup_eq_none_iff, ← Option.isNone_iff_eq_none]
    exact hnone

/-! ## clientConn.read behaviour -/

/-- `clientConn.read` reads the 4-byte big-endian declared length, then
exactly that many bytes, and decodes them — whatever the declared
length is.  There is no segment-size ceiling. -/
theorem clientConnRead_spec (b0 b1 b2 b3 : Nat) (body rest : Bytes)
    (hlen : body.length = ((b0 * 256 + b1) * 256 + b2) * 256 + b3) :
    clientConnRead (b0 :: b1 :: b2 :: b3 :: (body ++ rest)) =
      (match Message.decode body with
       | .ok m => (.ok m, rest)
       | .error e => (.error (.decodeFailed e), rest)) := by
  rw [clientConnRead, ← hlen, List.take_left, List.drop_left, if_pos rfl]

theorem encodeListItems_length :
    ∀ {l : List Bytes} {ei : Bytes}, encodeListItems l = .ok ei →
      ei.length = (l.map fun v => 3 + v.length).sum := by
  intro l
  induction l with
  | nil =>
    intro ei h
    rw [encodeListItems] at h
    cases h
    simp
  | cons hd tl ih =>
    intro ei h
    rw [encodeListItems] at h
    cases hv : encodeValue hd with
    | error e => rw [hv, exceptBind_err] at h; cases h
    | ok ev =>
      rw [hv, exceptBind_ok] at h
      cases hr : encodeListItems tl with
      | error e => rw [hr, exceptBind_err] at h; cases h
      | ok er =>
        rw [hr, exceptBind_ok, exceptPure] at h
        cases h
        obtain ⟨-, hev⟩ := encodeValue_ok_iff.mp hv
        subst hev
        simp [ih hr]
        omega

/-! ## Concrete oversized segment for the read-ceiling claim -/

/-- A list item of the maximal wire length. -/
def c3item : Bytes := List.replicate 65535 97

/-- A list item chosen so that the whole packet is 524289 bytes. -/
def c3item2 : Bytes := List.replicate 65515 97

/-- A `CmdResponse` packet carrying one list whose encoding is exactly
524289 bytes long — one byte more than 512 KiB. -/
def c3msg : Message :=
  ⟨some ⟨pktCmdResponse, [], 0⟩, [[107]],
    [([107], .vlist (List.replicate 7 c3item ++ [c3item2]))]⟩

theorem valOK_replicate {n a : Nat} (hn : n ≤ 65535) (ha : a < 256) :
    valOK (List.replicate n a) = true := by
  rw [valOK_iff]
  refine ⟨by simp only [List.length_replicate]; exact hn, ?_⟩
  intro b hb
  rw [List.eq_of_mem_replicate hb]
  exact ha

theorem c3msg_wf : c3msg.wf = true := by
  rw [c3msg, Message.wf, headerWF]
  have h1 : valOK c3item = true := by
    rw [c3item]
    exact valOK_replicate (by omega) (by omega)
  have h2 : valOK c3item2 = true := by
    rw [c3item2]
    exact valOK_replicate (by omega) (by omega)
  simp only [Bool.and_eq_true, decide_eq_true_eq]
  refine ⟨⟨?_, by simp [dataKeys]⟩, ?_⟩
  · simp only [ptypeNamed, pktCmdResponse, pktCmdRequest, pktEventRegister,
      pktEventUnregister, pktEvent, pktInvalid]
    norm_num
  · rw [dataWF]
    simp only [Bool.and_eq_true]
    refine ⟨⟨⟨by simp [keyOK], ?_⟩, by simp [dataLookup]⟩, by rw [dataWF]⟩
    rw [mvalueWF]
    simp only [List.all_eq_true]
    intro s hs
    rcases List.mem_append.mp hs with hs | hs
    · rw [List.eq_of_mem_replicate hs]
      exact h1
    · rw [List.mem_singleton.mp hs]
      exact h2

theorem c3msg_encode_length :
    ∃ bts, c3msg.encode = .ok bts ∧ bts.length = 524289 := by
  obtain ⟨ei, hei⟩ := encodeListItems_ok_of_wf (List.replicate 7 c3item ++ [c3item2]) (by
    intro item him
    rcases List.mem_append.mp him with hs | hs
    · rw [List.eq_of_mem_replicate hs, c3item]
      exact valOK_replicate (by omega) (by omega)
    · rw [List.mem_singleton.mp hs, c3item2]
      exact valOK_replicate (by omega) (by omega))
  have hc3i : c3item.length = 65535 := by rw [c3item, List.length_replicate]
  have hc3i2 : c3item2.length = 65515 := by rw [c3item2, List.length_replicate]
  have heilen : ei.length = 524284 := by
    rw [encodeListItems_length hei]
    simp only [List.map_append, List.map_replicate, List.sum_append, List.sum_replicate,
      List.map_cons, List.map_nil, List.sum_cons, List.sum_nil, smul_eq_mul, hc3i, hc3i2]
    norm_num
  have hvalid : c3msg.packetIsValid = true := by rfl
  have hh : c3msg.header = some ⟨pktCmdResponse, [], 0⟩ := rfl
  have hnm : c3msg.packetIsNamed = false := rfl
  have heq : encodeElements c3msg.keys c3msg.data = encodeElemsL c3msg.data := by
    have hsh : dataShape c3msg.data = true := by
      rw [show c3msg.data = [([107], .vlist (List.replicate 7 c3item ++ [c3item2]))] from rfl]
      simp [dataShape, mvalueShape, dataLookup]
    have := encodeElements_eq_encodeElemsL (sizeOf c3msg.data) [] c3msg.data le_rfl
      (by simpa using hsh)
    simpa [show dataKeys c3msg.data = c3msg.keys from rfl] using this
  have hbody : encodeElemsL c3msg.data =
      .ok ((msgListStart :: (([107].length :: [107]) ++ ei ++ [msgListEnd])) ++ []) := by
    rw [show c3msg.data = [([107], .vlist (List.replicate 7 c3item ++ [c3item2]))] from rfl]
    simp only [encodeElemsL,
      @encodeList_ok [107] (List.replicate 7 c3item ++ [c3item2]) ei (by simp) (by simp) hei,
      exceptBind_ok, exceptPure]
  have hENC : c3msg.encode =
      .ok (pktCmdResponse ::
        ([] ++ ((msgListStart :: (([107].length :: [107]) ++ ei ++ [msgListEnd])) ++ []))) := by
    rw [Message.encode, hvalid]
    simp only [Bool.not_true, Bool.false_eq_true, if_false, hh, hnm, reduceIte, heq, hbody,
      exceptBind_ok, exceptPure, not_true, eq_self_iff_true]
  refine ⟨_, hENC, ?_⟩
  simp only [List.length_cons, List.length_append, List.nil_append, List.append_nil,
    List.length_nil, heilen, List.length_singleton]

/-- The oversized wire segment itself: the successful 524289-byte
encoding of `c3msg`. -/
def c3seg : Bytes := (c3msg.encode).toOption.getD []

/-! ## Claim theorems C1 - C5 -/

/-- Claim C1 (confirmed): codec round-trip identity.  For every
well-formed message (keys non-empty and at most 255 bytes, scalar
values and list items at most 65535 bytes, sections recursively
well-formed, valid packet header), `encode` succeeds and `decode` of
the produced bytes yields a message with exactly the same keys in the
same insertion order and exactly the same data map at every level
(the header keeps its type and name; the sequence number is the
decoder's 0). -/
theorem c1_roundtrip_identity (m : Message) (h : Header)
    (hwf : m.wf = true) (hh : m.header = some h) :
    ∃ bytes, m.encode = .ok bytes ∧
      Message.decode bytes = .ok ⟨some ⟨h.ptype, h.name, 0⟩, m.keys, m.data⟩ :=
  encode_then_decode hwf hh

/-- A small concrete message for the C1 witness. -/
def c1msg : Message :=
  ⟨some ⟨pktCmdResponse, [], 0⟩, [[107]], [([107], .vstr [118])]⟩

/-- Witness for C1 at a concrete one-element message. -/
theorem c1_roundtrip_identity_witness :
    ∃ bytes, c1msg.encode = .ok bytes ∧
      Message.decode bytes = .ok ⟨some ⟨pktCmdResponse, [], 0⟩, c1msg.keys, c1msg.data⟩ :=
  c1_roundtrip_identity c1msg ⟨pktCmdResponse, [], 0⟩ (by decide) rfl

/-- Claim C2 (confirmed): encode length safety.  Whenever the data map
contains, at any level, a key longer than 255 bytes or a scalar value
or list item longer than 65535 bytes (`dataOversize`), `encode` fails
with the `val too long` size error of `safePutUint8`/`safePutUint16`
and produces no output — in particular nothing truncated or split is
ever emitted. -/
theorem c2_encode_size_error (m : Message) (h : Header)
    (hh : m.header = some h) (hvalid : m.packetIsValid = true)
    (hcanon : dataKeys m.data = m.keys) (hshape : dataShape m.data = true)
    (hover : dataOversize m.data = true) :
    ∃ v lim, m.encode = .error (.valTooLong v lim) :=
  encode_oversize_size_error hh hvalid hcanon hshape hover

/-- An over-long key (256 bytes) for the C2 witness. -/
def c2key : Bytes := List.replicate 256 107

theorem c2key_length : c2key.length = 256 := by
  simp only [c2key, List.length_replicate]

theorem c2key_ne : c2key ≠ [] := by
  intro hc
  have h2 := congrArg List.length hc
  rw [c2key_length] at h2
  simp at h2

/-- Witness for C2 at a concrete message with a 256-byte key. -/
theorem c2_encode_size_error_witness :
    ∃ v lim,
      Message.encode ⟨some ⟨pktCmdResponse, [], 0⟩, [c2key], [(c2key, .vstr [118])]⟩ =
        .error (.valTooLong v lim) :=
  c2_encode_size_error ⟨some ⟨pktCmdResponse, [], 0⟩, [c2key], [(c2key, .vstr [118])]⟩
    ⟨pktCmdResponse, [], 0⟩ rfl rfl rfl
    (by simp [dataShape, mvalueShape, dataLookup, c2key_ne])
    (by simp [dataOversize, mvalueOversize, c2key_length])

/-- Claim C4 (confirmed): malformed-decode rejection.  Every buffer
`decode` accepts is the exact encoding of a well-formed message — so a
buffer containing an invalid element tag, a length prefix promising
more bytes than remain, or a zero-length key is never accepted; and on
a corpus of malformed buffers (unknown tag, zero-length key, truncated
key, truncated value, missing value length, unterminated section,
invalid packet type) `decode` returns the corresponding error. -/
theorem c4_malformed_rejection :
    (∀ (data : Bytes) (m : Message), (∀ b ∈ data, b < 256) →
        Message.decode data = .ok m → m.encode = .ok data ∧ m.wf = true) ∧
    Message.decode [pktCmdResponse, 7] = .error (.invalidElement 7) ∧
    Message.decode [pktCmdResponse, msgKeyValue, 0] = .error .keyEmpty ∧
    Message.decode [pktCmdResponse, msgKeyValue, 2, 107] = .error .badKey ∧
    Message.decode [pktCmdResponse, msgKeyValue, 1, 107, 0, 5, 120] = .error .badValue ∧
    Message.decode [pktCmdResponse, msgKeyValue, 1, 107, 0] = .error .endOfBuffer ∧
    Message.decode [pktCmdResponse, msgSectionStart, 1, 107, msgKeyValue, 1, 108, 0, 0] =
      .error .readEOF ∧
    Message.decode [9] = .error (.invalidPacketType 9) :=
  ⟨fun _ _ hb h => decode_inv h hb, rfl, rfl, rfl, rfl, rfl, rfl, rfl⟩

/-- Witness for C4: a concrete accepted buffer is the exact encoding
of the (well-formed) message it decodes to. -/
theorem c4_malformed_rejection_witness :
    Message.encode ⟨some ⟨pktCmdResponse, [], 0⟩, [[107]], [([107], MValue.vstr [118])]⟩ =
        .ok [pktCmdResponse, msgKeyValue, 1, 107, 0, 1, 118] ∧
    Message.wf ⟨some ⟨pktCmdResponse, [], 0⟩, [[107]], [([107], MValue.vstr [118])]⟩ = true :=
  c4_malformed_rejection.1 [pktCmdResponse, msgKeyValue, 1, 107, 0, 1, 118]
    ⟨some ⟨pktCmdResponse, [], 0⟩, [[107]], [([107], MValue.vstr [118])]⟩ (by decide) rfl

/-- Claim C5 (confirmed): duplicate-key rejection on decode.  Every
message `decode` accepts has unique keys at every nesting level (the
`addItemUnique` check), and a concrete wire message carrying the same
key twice at one level is rejected with the duplicate-key error. -/
theorem c5_duplicate_key_rejection :
    (∀ (data : Bytes) (m : Message), (∀ b ∈ data, b < 256) →
        Message.decode data = .ok m →
        m.keys.Nodup ∧ dataKeysUnique m.data = true) ∧
    Message.decode
        [pktCmdResponse, msgKeyValue, 1, 107, 0, 0, msgKeyValue, 1, 107, 0, 0] =
      .error (.keyExists [107]) := by
  refine ⟨fun data m hb h => ?_, rfl⟩
  have hwf := (decode_inv h hb).2
  rw [Message.wf] at hwf
  simp only [Bool.and_eq_true, decide_eq_true_eq] at hwf
  obtain ⟨⟨-, hcanon⟩, hdwf⟩ := hwf
  refine ⟨hcanon ▸ dataWF_keys_nodup m.data hdwf, ?_⟩
  exact dataWF_imp_keysUnique (sizeOf m.data) m.data le_rfl hdwf

/-- Witness for C5: the keys of a concretely decoded message are
unique at every level. -/
theorem c5_duplicate_key_rejection_witness :
    (Message.keys ⟨some ⟨pktCmdResponse, [], 0⟩, [[107]], [([107], MValue.vstr [118])]⟩).Nodup ∧
    dataKeysUnique
        (Message.data ⟨some ⟨pktCmdResponse, [], 0⟩, [[107]], [([107], MValue.vstr [118])]⟩) =
      true :=
  c5_duplicate_key_rejection.1 [pktCmdResponse, msgKeyValue, 1, 107, 0, 1, 118]
    ⟨some ⟨pktCmdResponse, [], 0⟩, [[107]], [([107], MValue.vstr [118])]⟩ (by decide) rfl

/-! ## Claim C3: receive-side segment ceiling (corrected) -/

/-- Claim C3 counterexample: a framed segment whose 4-byte big-endian
declared length is 524289 — one byte above the claimed 512 KiB
(524288) ceiling — is not rejected by `clientConn.read`: the length
header `[0, 8, 0, 1]` declares 524289, and `read` allocates, reads and
successfully decodes the whole segment. -/
theorem c3_over_ceiling_accepted :
    524288 < c3seg.length ∧
    clientConnRead (0 :: 8 :: 0 :: 1 :: c3seg) =
      (.ok ⟨some ⟨pktCmdResponse, [], 0⟩, c3msg.keys, c3msg.data⟩, []) := by
  obtain ⟨bts, henc, hlen⟩ := c3msg_encode_length
  obtain ⟨bts2, henc2, hdec⟩ := encode_then_decode c3msg_wf rfl
  rw [henc] at henc2
  injection henc2 with hbb
  have hseg : c3seg = bts := by
    rw [show c3seg = (c3msg.encode).toOption.getD [] from rfl, henc]
    rfl
  subst hbb
  refine ⟨by rw [hseg, hlen]; omega, ?_⟩
  have hspec := clientConnRead_spec 0 8 0 1 bts [] (by omega)
  rw [List.append_nil] at hspec
  rw [hseg, hspec, hdec]

/-- Claim C3 (amended): `clientConn.read` enforces no segment-size
ceiling.  It reads whatever 4-byte big-endian length the peer declares,
then exactly that many bytes, and hands them to the decoder; whether
the segment is accepted depends only on `Message.decode`, never on the
declared size. -/
theorem c3_read_no_size_ceiling (b0 b1 b2 b3 : Nat) (body rest : Bytes)
    (hlen : body.length = ((b0 * 256 + b1) * 256 + b2) * 256 + b3) :
    clientConnRead (b0 :: b1 :: b2 :: b3 :: (body ++ rest)) =
      (match Message.decode body with
       | .ok m => (.ok m, rest)
       | .error e => (.error (.decodeFailed e), rest)) :=
  clientConnRead_spec b0 b1 b2 b3 body rest hlen

/-- Witness for the amended C3 theorem at a concrete framed segment. -/
theorem c3_read_no_size_ceiling_witness :
    clientConnRead (0 :: 0 :: 0 :: 2 :: ([pktCmdResponse, 7] ++ [9])) =
      (match Message.decode [pktCmdResponse, 7] with
       | .ok m => (.ok m, [9])
       | .error e => (.error (.decodeFailed e), [9])) :=
  c3_read_no_size_ceiling 0 0 0 2 [pktCmdResponse, 7] [9] (by decide)

/-! ## Claim C6: call response discrimination (client_conn.go)

The transport steps of `clientConn.request` (`write`, `wait`) are
modelled away; what remains is the discrimination `request` applies to
the correlated response packet `p` returned by `wait`, and the final
`return p, p.Err()`. -/

/-- The bytes of the string `success`. -/
def successKey : Bytes := [115, 117, 99, 99, 101, 115, 115]

/-- The bytes of the string `errmsg`. -/
def errmsgKey : Bytes := [101, 114, 114, 109, 115, 103]

/-- The bytes of the string `yes`. -/
def yesVal : Bytes := [121, 101, 115]

/-- The bytes of the string `no`. -/
def noVal : Bytes := [110, 111]

/-- The Go comparison `success != "yes"` on the `any`-typed value:
true exactly for the string `yes`. -/
def mvalueIsYes : MValue → Bool
  | .vstr s => s = yesVal
  | _ => false

/-- The client-side error values surfaced by `request`/`call`:
`errCommandFailed` (carrying the `errmsg` field), `errEventUnknown`
(carrying the event name), `errUnexpectedResponse` (carrying the
response packet type), and the internal invalid-request-type error. -/
inductive ReqErr where
  | commandFailed (errmsg : Option MValue)
  | eventUnknown (name : Bytes)
  | unexpectedResponse (ptype : Nat)
  | invalidRequestType (ptype : Nat)

/-- `Message.Err`: if the message carries a `success` field whose value
is not the string `yes`, the command-failed error carrying the
message's `errmsg` field; otherwise no error. -/
def Message.Err (m : Message) : Option ReqErr :=
  match dataLookup m.data successKey with
  | some success =>
    if mvalueIsYes success then none
    else some (.commandFailed (dataLookup m.data errmsgKey))
  | none => none

/-- The response discrimination of `clientConn.request`: after `wait`
returns the correlated packet `p`, switch on the REQUEST type.  A
command request accepts only `pktCmdResponse` — anything else,
`pktCmdUnknown` included, is the generic `errUnexpectedResponse`.
Event (un)registration maps `pktEventUnknown` to `errEventUnknown` and
rejects everything else but `pktEventConfirm`.  Then `request` returns
`p, p.Err()`, modelled as `ok p` exactly when `Err` is `none`.  The
nil-header branch is unreachable: `read` only produces packets with a
header. -/
def requestHandleResponse (ptype : Nat) (name : Bytes) (p : Message) :
    Except ReqErr Message :=
  match p.header with
  | none => .error (.unexpectedResponse pktInvalid)
  | some rh =>
    if ptype = pktCmdRequest then
      if rh.ptype ≠ pktCmdResponse then .error (.unexpectedResponse rh.ptype)
      else
        match p.Err with
        | some e => .error e
        | none => .ok p
    else if ptype = pktEventRegister ∨ ptype = pktEventUnregister then
      if rh.ptype = pktEventUnknown then .error (.eventUnknown name)
      else if rh.ptype ≠ pktEventConfirm then .error (.unexpectedResponse rh.ptype)
      else
        match p.Err with
        | some e => .error e
        | none => .ok p
    else .error (.invalidRequestType ptype)

/-- `clientConn.call`: `request(pktCmdRequest, cmd, in)`; its handling
of the awaited response packet. -/
def callHandleResponse (cmd : Bytes) (p : Message) : Except ReqErr Message :=
  requestHandleResponse pktCmdRequest cmd p

/-- Claim C6 counterexample: a `pktCmdUnknown` response to `call`
yields the generic `errUnexpectedResponse` — the very same error an
out-of-protocol `pktEvent` response yields — not a distinguishable
unknown-command error. -/
theorem c6_cmdunknown_not_distinguished :
    callHandleResponse [99] ⟨some ⟨pktCmdUnknown, [], 0⟩, [], []⟩ =
        .error (.unexpectedResponse pktCmdUnknown) ∧
    callHandleResponse [99] ⟨some ⟨pktEvent, [], 0⟩, [], []⟩ =
        .error (.unexpectedResponse pktEvent) :=
  ⟨rfl, rfl⟩

/-- Claim C6 (amended): `call`'s response discrimination.  Any response
type other than `pktCmdResponse` — `pktCmdUnknown` included — is
rejected with the one generic unexpected-response error carrying the
received packet type; a `pktCmdResponse` whose `success` field is not
`yes` becomes the command-failed error carrying `errmsg`; a
`pktCmdResponse` with no error is returned as is. -/
theorem c6_call_response_discrimination (cmd : Bytes) (p : Message) (rh : Header)
    (hh : p.header = some rh) :
    (rh.ptype ≠ pktCmdResponse →
        callHandleResponse cmd p = .error (.unexpectedResponse rh.ptype)) ∧
    (rh.ptype = pktCmdResponse → p.Err = none →
        callHandleResponse cmd p = .ok p) ∧
    (∀ v, rh.ptype = pktCmdResponse → dataLookup p.data successKey = some v →
        mvalueIsYes v = false →
        callHandleResponse cmd p =
          .error (.commandFailed (dataLookup p.data errmsgKey))) := by
  have hbase : callHandleResponse cmd p =
      (if rh.ptype ≠ pktCmdResponse then .error (.unexpectedResponse rh.ptype)
       else
         match p.Err with
         | some e => .error e
         | none => .ok p) := by
    rw [callHandleResponse, requestHandleResponse, hh]
    simp
  refine ⟨fun hne => ?_, fun heq herr => ?_, fun v heq hsucc hyes => ?_⟩
  · rw [hbase, if_pos hne]
  · rw [hbase, if_neg (by simp [heq]), herr]
  · rw [hbase, if_neg (by simp [heq])]
    simp only [Message.Err, hsucc, hyes, Bool.false_eq_true, if_false]

/-- A concrete failed command response (`success = no`,
`errmsg = bad`) for the C6 witness. -/
def c6resp : Message :=
  ⟨some ⟨pktCmdResponse, [], 0⟩, [successKey, errmsgKey],
    [(successKey, .vstr noVal), (errmsgKey, .vstr [98, 97, 100])]⟩

/-- Witness for the amended C6 theorem: the concrete failed command
response is turned into the command-failed error carrying `errmsg`. -/
theorem c6_call_response_discrimination_witness :
    callHandleResponse [99] c6resp =
      .error (.commandFailed (some (.vstr [98, 97, 100]))) := by
  have h := (c6_call_response_discrimination [99] c6resp ⟨pktCmdResponse, [], 0⟩ rfl).2.2
    (.vstr noVal) rfl rfl rfl
  rw [show dataLookup c6resp.data errmsgKey = some (.vstr [98, 97, 100]) from rfl] at h
  exact h

/-! ## Claim C7: reader event dispatch (client_conn.go) -/

/-- The `events` state of a `clientConn`: the subscribed event names
(`list`), the event name of the currently active streaming call
(`streaming`, the empty string when none), and the subscriber
(notify) channels, identified by number. -/
structure EventsState where
  list : List Bytes
  streaming : Bytes
  subscribers : List Nat

/-- Where `dispatch` enqueues an event: the internal response queue
(`cc.pc`) or a subscriber channel. -/
inductive DispatchTarget where
  | internalQueue
  | subscriber (c : Nat)
  deriving DecidableEq, Repr

/-- `clientConn.dispatch`: an event whose name equals the active
streaming call's event name goes to the internal response queue ONLY
(early return); otherwise, an event whose name is subscribed goes to
every subscriber channel; otherwise it is dropped.  (The non-blocking
`select`/`default` sends are modelled as the list of targets the
dispatch attempts.) -/
def dispatch (st : EventsState) (name : Bytes) : List DispatchTarget :=
  if name = st.streaming then [.internalQueue]
  else if st.list.contains name then st.subscribers.map .subscriber
  else []

/-- What the reader loop `clientConn.listen` does with one received
packet. -/
inductive ListenAction where
  | dispatched (targets : List DispatchTarget)
  | queuedResponse
  | ignored
  deriving DecidableEq, Repr

/-- One iteration of `clientConn.listen` after a successful `read`:
an `pktEvent` packet is dispatched; the four direct response types are
queued on the internal response channel; everything else is ignored. -/
def listenStep (st : EventsState) (h : Header) : ListenAction :=
  if h.ptype = pktEvent then .dispatched (dispatch st h.name)
  else if h.ptype = pktCmdResponse ∨ h.ptype = pktCmdUnknown ∨
      h.ptype = pktEventConfirm ∨ h.ptype = pktEventUnknown then .queuedResponse
  else .ignored

/-- Claim C7 counterexample: an Event packet whose name equals the
active streaming call's event name is enqueued on the internal
response queue ONLY — the subscriber channel subscribed to that very
event receives nothing, contradicting the claim that every Event is
enqueued on every subscriber channel. -/
theorem c7_streaming_event_not_broadcast :
    listenStep ⟨[[101]], [101], [0]⟩ ⟨pktEvent, [101], 0⟩ =
        .dispatched [.internalQueue] ∧
    DispatchTarget.subscriber 0 ∉ dispatch ⟨[[101]], [101], [0]⟩ [101] := by
  decide

/-- Claim C7 (amended): the reader's dispatch rule.  An Event packet
whose name equals the active streaming call's event name goes to the
internal response queue only; an Event packet with any other
subscribed name goes to every subscriber channel (and not to the
internal queue); an Event packet with an unsubscribed name is dropped;
the four direct response types are queued internally. -/
theorem c7_event_dispatch_rule (st : EventsState) (h : Header) :
    (h.ptype = pktEvent →
      listenStep st h = .dispatched (dispatch st h.name) ∧
      (h.name = st.streaming → dispatch st h.name = [.internalQueue]) ∧
      (h.name ≠ st.streaming → st.list.contains h.name = true →
          dispatch st h.name = st.subscribers.map .subscriber) ∧
      (h.name ≠ st.streaming → st.list.contains h.name = false →
          dispatch st h.name = [])) ∧
    (h.ptype = pktCmdResponse ∨ h.ptype = pktCmdUnknown ∨
        h.ptype = pktEventConfirm ∨ h.ptype = pktEventUnknown →
      listenStep st h = .queuedResponse) := by
  constructor
  · intro hev
    refine ⟨by rw [listenStep, if_pos hev], fun hstr => ?_, fun hne hsub => ?_,
      fun hne hnosub => ?_⟩
    · rw [dispatch, if_pos hstr]
    · rw [dispatch, if_neg hne, hsub, if_pos rfl]
    · rw [dispatch, if_neg hne, hnosub]
      simp
  · intro hresp
    have hne : ¬ h.ptype = pktEvent := by
      rcases hresp with h1 | h1 | h1 | h1 <;> rw [h1] <;> decide
    rw [listenStep, if_neg hne, if_pos hresp]

/-- Witness for the amended C7 theorem: a subscribed, non-streaming
event reaches both subscriber channels. -/
theorem c7_event_dispatch_rule_witness :
    dispatch ⟨[[101]], [], [0, 1]⟩ [101] = [.subscriber 0, .subscriber 1] := by
  have h := (c7_event_dispatch_rule ⟨[[101]], [], [0, 1]⟩ ⟨pktEvent, [101], 0⟩).1 rfl
  exact h.2.2.1 (by decide) (by decide)

/-! ## Claim C9: unmarshal numeric parsing (message.go, strconv) -/

/-- One decimal digit: bytes `48` - `57` (`0` - `9`). -/
def digitVal (c : Nat) : Option Nat :=
  if 48 ≤ c ∧ c ≤ 57 then some (c - 48) else none

/-- Accumulate decimal digits left to right (`strconv`'s base-10
loop); `none` on any non-digit byte. -/
def parseDigitsAcc : List Nat → Nat → Option Nat
  | [], acc => some acc
  | c :: rest, acc =>
    match digitVal c with
    | none => none
    | some d => parseDigitsAcc rest (acc * 10 + d)

/-- `strconv.ParseUint(s, 10, 64)`: digits only (no sign permitted),
non-empty, error when the value exceeds `2^64 - 1`. -/
def parseUint64 (s : Bytes) : Option Nat :=
  if s = [] then none
  else
    match parseDigitsAcc s 0 with
    | none => none
    | some v => if v ≤ 18446744073709551615 then some v else none

/-- The digits of a signed parse, with the sign already consumed:
error outside `[-2^63, 2^63 - 1]`. -/
def parseIntMag (digits : Bytes) (neg : Bool) : Option Int :=
  if digits = [] then none
  else
    match parseDigitsAcc digits 0 with
    | none => none
    | some v =>
      if neg then
        if v ≤ 9223372036854775808 then some (-(v : Int)) else none
      else if v ≤ 9223372036854775807 then some ((v : Int)) else none

/-- `strconv.ParseInt(s, 10, 64)`: an optional leading `+`/`-`
followed by digits. -/
def parseInt64 (s : Bytes) : Option Int :=
  match s with
  | [] => none
  | c :: rest =>
    if c = 45 then parseIntMag rest true
    else if c = 43 then parseIntMag rest false
    else parseIntMag s false

/-- The unmarshal error relevant to the numeric paths:
`errUnmarshalParseFailure`. -/
inductive UnmErr where
  | parseFailure
  deriving DecidableEq, Repr

/-- The `reflect.Uint*` arm of `Message.unmarshalField`:
`strconv.ParseUint(raw, 10, 64)` — the bit size is 64 regardless of
the field's width — then `reflect.Value.SetUint`, which stores the
value truncated to the field's width. -/
def unmarshalFieldUint (width : Nat) (raw : Bytes) : Except UnmErr Nat :=
  match parseUint64 raw with
  | none => .error .parseFailure
  | some v => .ok (v % 2 ^ width)

/-- The `reflect.Int*` arm of `Message.unmarshalField`:
`strconv.ParseInt(raw, 10, 64)` then `reflect.Value.SetInt`, which
stores the value wrapped to the field's signed width. -/
def unmarshalFieldInt (width : Nat) (raw : Bytes) : Except UnmErr Int :=
  match parseInt64 raw with
  | none => .error .parseFailure
  | some v => .ok ((v + 2 ^ (width - 1)).emod (2 ^ width) - 2 ^ (width - 1))

theorem parseUint64_le {s : Bytes} {v : Nat} (h : parseUint64 s = some v) :
    v ≤ 18446744073709551615 := by
  rw [parseUint64] at h
  split at h
  · cases h
  · split at h
    · cases h
    · split at h
      · cases h
        assumption
      · cases h

theorem parseIntMag_bounds {digits : Bytes} {neg : Bool} {v : Int}
    (h : parseIntMag digits neg = some v) :
    -9223372036854775808 ≤ v ∧ v ≤ 9223372036854775807 := by
  rw [parseIntMag] at h
  split at h
  · cases h
  · split at h
    · cases h
    · rename_i n
      split at h
      · split at h
        · rename_i hle
          cases h
          omega
        · cases h
      · split at h
        · rename_i hle
          cases h
          omega
        · cases h

theorem parseInt64_bounds {s : Bytes} {v : Int} (h : parseInt64 s = some v) :
    -9223372036854775808 ≤ v ∧ v ≤ 9223372036854775807 := by
  match s with
  | [] => cases h
  | c :: rest =>
    rw [parseInt64] at h
    split at h
    · exact parseIntMag_bounds h
    · split at h
      · exact parseIntMag_bounds h
      · exact parseIntMag_bounds h

/-- Claim C9 counterexample: the decimal string `300` unmarshaled into
a `uint8` field is NOT an error — `ParseUint` runs at bit size 64 and
`reflect.Value.SetUint` silently truncates 300 to `300 mod 256 = 44`;
likewise `1001` into an `int8` field silently wraps to `-23`. -/
theorem c9_uint_overflow_not_error :
    unmarshalFieldUint 8 [51, 48, 48] = .ok 44 ∧
    unmarshalFieldInt 8 [49, 48, 48, 49] = .ok (-23) :=
  ⟨rfl, rfl⟩

/-- Claim C9 (amended): numeric unmarshaling.  For a fixed-width
unsigned field a non-numeric string or a decimal value exceeding
`2^64 - 1` is a parse error, but a value that fits in 64 bits and
overflows the field's declared width is silently truncated modulo
`2^width`; a fixed-width signed field likewise parses at bit size 64
and silently wraps to the field's signed width. -/
theorem c9_unmarshal_numeric (width : Nat) (raw : Bytes) :
    (parseUint64 raw = none → unmarshalFieldUint width raw = .error .parseFailure) ∧
    (∀ v, parseUint64 raw = some v →
        v ≤ 18446744073709551615 ∧
        unmarshalFieldUint width raw = .ok (v % 2 ^ width)) ∧
    (parseInt64 raw = none → unmarshalFieldInt width raw = .error .parseFailure) ∧
    (∀ v, parseInt64 raw = some v →
        -9223372036854775808 ≤ v ∧ v ≤ 9223372036854775807 ∧
        unmarshalFieldInt width raw =
          .ok ((v + 2 ^ (width - 1)).emod (2 ^ width) - 2 ^ (width - 1))) := by
  refine ⟨fun h => ?_, fun v h => ?_, fun h => ?_, fun v h => ?_⟩
  · rw [unmarshalFieldUint, h]
  · exact ⟨parseUint64_le h, by rw [unmarshalFieldUint, h]⟩
  · rw [unmarshalFieldInt, h]
  · obtain ⟨h1, h2⟩ := parseInt64_bounds h
    exact ⟨h1, h2, by rw [unmarshalFieldInt, h]⟩

/-- Witness for the amended C9 theorem at `300` into a `uint8`
field. -/
theorem c9_unmarshal_numeric_witness :
    (300 : Nat) ≤ 18446744073709551615 ∧
    unmarshalFieldUint 8 [51, 48, 48] = .ok (300 % 2 ^ 8) :=
  (c9_unmarshal_numeric 8 [51, 48, 48]).2.1 300 (by decide)

/-! ## Decimal formatting (strconv, used by marshalField) -/

/-- The decimal digit bytes of `n` (empty for 0). -/
def natDigits : Nat → List Nat
  | 0 => []
  | n + 1 => natDigits ((n + 1) / 10) ++ [(n + 1) % 10 + 48]
decreasing_by
  exact Nat.div_lt_self (Nat.succ_pos _) (by omega)

/-- `strconv.FormatUint(v, 10)`. -/
def formatUint (v : Nat) : Bytes :=
  if v = 0 then [48] else natDigits v

/-- `strconv.FormatInt(v, 10)`. -/
def formatInt (v : Int) : Bytes :=
  if v < 0 then 45 :: formatUint v.natAbs else formatUint v.toNat

/-! ## Claim C8: empty-field omission in marshal (message.go)

A struct field as `marshalFromStruct` sees it is a tuple
`(tag, skip, inline, canInterface, value)`: the vici tag name, the
`skip` and `inline` flags of `newMessageTag`, exportedness
(`CanInterface`), and the field value. -/

/-- A Go value as the marshaller sees it through `reflect`: strings,
`[]string` slices (nil or present), `map[string]string` maps (nil or
present), signed and unsigned integers, booleans, nested structs, and
pointers (nil or pointing at a value). -/
inductive GoVal where
  | gstr (s : Bytes)
  | gslice (elems : Option (List Bytes))
  | gmap (entries : Option (List (Bytes × Bytes)))
  | gint (v : Int)
  | guint (v : Nat)
  | gbool (b : Bool)
  | gstruct (fields : List (Bytes × Bool × Bool × Bool × GoVal))
  | gptrNil
  | gptr (v : GoVal)

mutual

/-- `emptyMessageElement`: nil and zero-length slices and maps, the
empty string, nil pointers, and structs all of whose fields are
recursively empty, are empty; integers and booleans never are. -/
def emptyMessageElement : GoVal → Bool
  | .gstr s => s.isEmpty
  | .gslice none => true
  | .gslice (some l) => l.isEmpty
  | .gmap none => true
  | .gmap (some l) => l.isEmpty
  | .gint _ => false
  | .guint _ => false
  | .gbool _ => false
  | .gstruct fields => emptyFieldsAll fields
  | .gptrNil => true
  | .gptr _ => false

/-- The struct arm of `emptyMessageElement`: the conjunction over all
fields (flags are not consulted). -/
def emptyFieldsAll : List (Bytes × Bool × Bool × Bool × GoVal) → Bool
  | [] => true
  | (_, _, _, _, v) :: rest => emptyMessageElement v && emptyFieldsAll rest

end

/-- `Message.marshalFromMap` on `map[string]string`: add each entry as
a string item. -/
def marshalMapInto (m : Message) : List (Bytes × Bytes) → Message
  | [] => m
  | (k, v) :: rest => marshalMapInto (m.addItem k (.vstr v)) rest

mutual

/-- `Message.marshalField` for the supported kinds, as the `MValue`
stored by `addItem`: strings directly, slices as lists (a nil slice as
the empty list), integers via their decimal strings, booleans as
`yes`/`no`, non-nil pointers via the pointed-to value, and structs and
maps as sub-messages built on a fresh `NewMessage`.  A nil non-Message
pointer indirects to the `reflect.Invalid` default arm: an
unsupported-type error (`none`). -/
def marshalFieldVal : GoVal → Option MValue
  | .gstr s => some (.vstr s)
  | .gslice none => some (.vlist [])
  | .gslice (some l) => some (.vlist l)
  | .gint v => some (.vstr (formatInt v))
  | .guint v => some (.vstr (formatUint v))
  | .gbool b => some (.vstr (if b then yesVal else noVal))
  | .gptrNil => none
  | .gptr v => marshalFieldVal v
  | .gmap none => some (.vsect [] [])
  | .gmap (some entries) =>
    some (.vsect (marshalMapInto NewMessage entries).keys
      (marshalMapInto NewMessage entries).data)
  | .gstruct fields =>
    match marshalStructInto NewMessage fields with
    | some msg => some (.vsect msg.keys msg.data)
    | none => none

/-- The `inline` arm of `marshalFromStruct`: marshal the inlined
struct's fields into the same message; an inlined non-struct value is
an unsupported-type error. -/
def marshalInline (m : Message) : GoVal → Option Message
  | .gstruct fields => marshalStructInto m fields
  | _ => none

/-- `Message.marshalFromStruct`: iterate the fields in order; skip
fields whose tag says skip and unexported fields; recurse into the
same message for `inline` fields (an inlined non-struct is an error);
skip empty fields (`emptyMessageElement`); marshal and `addItem` the
rest. -/
def marshalStructInto (m : Message) :
    List (Bytes × Bool × Bool × Bool × GoVal) → Option Message
  | [] => some m
  | (tag, skipf, inlinef, canIf, v) :: rest =>
    if skipf = true then marshalStructInto m rest
    else if canIf = false then marshalStructInto m rest
    else if inlinef = true then
      match marshalInline m v with
      | some m2 => marshalStructInto m2 rest
      | none => none
    else if emptyMessageElement v then marshalStructInto m rest
    else
      match marshalFieldVal v with
      | some mv => marshalStructInto (m.addItem tag mv) rest
      | none => none

end

/-- The tags `marshalFromStruct` emits: fields not skipped, exported,
not inlined, and non-empty. -/
def emittedTags (fields : List (Bytes × Bool × Bool × Bool × GoVal)) : List Bytes :=
  (fields.filter fun f =>
    !f.2.1 && f.2.2.2.1 && !f.2.2.1 && !emptyMessageElement f.2.2.2.2).map
    fun f => f.1

theorem addItem_fresh {m : Message} {k : Bytes} {v : MValue}
    (hk : dataLookup m.data k = none) :
    m.addItem k v = ⟨m.header, m.keys ++ [k], m.data ++ [(k, v)]⟩ := by
  rw [Message.addItem, Message.addItemFull]
  simp only [hk, Option.isSome_none, Bool.false_eq_true, false_and, if_false,
    Option.getD_some, if_neg]
  rw [dataInsert_eq_append hk]

theorem marshalStructInto_keys :
    ∀ (fields : List (Bytes × Bool × Bool × Bool × GoVal)) (m msg : Message),
      dataKeys m.data = m.keys →
      (∀ f ∈ fields, f.2.2.1 = false) →
      (m.keys ++ emittedTags fields).Nodup →
      marshalStructInto m fields = some msg →
      msg.keys = m.keys ++ emittedTags fields ∧ dataKeys msg.data = msg.keys := by
  intro fields
  induction fields with
  | nil =>
    intro m msg hcanon _ _ hok
    rw [marshalStructInto] at hok
    cases hok
    simp [emittedTags, hcanon]
  | cons f rest ih =>
    intro m msg hcanon hni hnd hok
    obtain ⟨tag, skipf, inlinef, canIf, v⟩ := f
    have hinl : inlinef = false := hni (tag, skipf, inlinef, canIf, v) (by simp)
    subst hinl
    rw [marshalStructInto] at hok
    have hrest : ∀ g ∈ rest, g.2.2.1 = false := fun g hg => hni g (by simp [hg])
    by_cases hskip : skipf = true
    · rw [if_pos hskip] at hok
      have het : emittedTags ((tag, skipf, false, canIf, v) :: rest) = emittedTags rest := by
        simp [emittedTags, hskip]
      rw [het] at hnd ⊢
      exact ih m msg hcanon hrest hnd hok
    · rw [if_neg hskip] at hok
      have hskip' : skipf = false := by revert hskip; cases skipf <;> simp
      by_cases hcan : canIf = false
      · rw [if_pos hcan] at hok
        have het : emittedTags ((tag, skipf, false, canIf, v) :: rest) = emittedTags rest := by
          simp [emittedTags, hcan]
        rw [het] at hnd ⊢
        exact ih m msg hcanon hrest hnd hok
      · rw [if_neg hcan] at hok
        have hcan' : canIf = true := by revert hcan; cases canIf <;> simp
        rw [if_neg (by simp)] at hok
        by_cases hemp : emptyMessageElement v = true
        · rw [if_pos hemp] at hok
          have het : emittedTags ((tag, skipf, false, canIf, v) :: rest) =
              emittedTags rest := by
            simp [emittedTags, hemp, hskip', hcan']
          rw [het] at hnd ⊢
          exact ih m msg hcanon hrest hnd hok
        · rw [if_neg hemp] at hok
          have hemp' : emptyMessageElement v = false := by
            revert hemp; cases emptyMessageElement v <;> simp
          have het : emittedTags ((tag, skipf, false, canIf, v) :: rest) =
              tag :: emittedTags rest := by
            simp [emittedTags, hemp', hskip', hcan']
          rw [het] at hnd ⊢
          cases hmv : marshalFieldVal v with
          | none => rw [hmv] at hok; cases hok
          | some mv =>
            rw [hmv] at hok
            have htagfresh : tag ∉ m.keys := by
              intro hc
              have : ¬ (m.keys ++ tag :: emittedTags rest).Nodup := by
                intro hn
                have hdisj := List.disjoint_of_nodup_append hn
                exact hdisj hc (by simp)
              exact this hnd
            have hlk : dataLookup m.data tag = none := by
              rw [dataLookup_eq_none_iff, hcanon]
              exact htagfresh
            have hadd := addItem_fresh (v := mv) hlk
            have hcanon' : dataKeys (m.addItem tag mv).data = (m.addItem tag mv).keys := by
              rw [hadd]
              simp only [dataKeys, List.map_append, List.map_cons, List.map_nil]
              rw [show List.map Prod.fst m.data = dataKeys m.data from rfl, hcanon]
            have hkeys' : (m.addItem tag mv).keys = m.keys ++ [tag] := by rw [hadd]
            have hnd' : ((m.addItem tag mv).keys ++ emittedTags rest).Nodup := by
              rw [hkeys']
              simpa using hnd
            obtain ⟨h1, h2⟩ := ih (m.addItem tag mv) msg hcanon' hrest hnd' hok
            refine ⟨?_, h2⟩
            rw [h1, hkeys']
            simp

/-- Claim C8 (confirmed): empty-field omission in marshal.  The keys
of the message marshalled from a struct are exactly the tags of the
non-empty (and not skipped, exported, not inlined) fields in field
order; a field is empty exactly when it is an empty string, a nil or
zero-length slice, a nil or empty map, a struct all of whose fields
are recursively empty, or a nil pointer; integer and boolean fields
are never empty, `0` marshals as the string `0` and `false` as `no`. -/
theorem c8_empty_field_omission (fields : List (Bytes × Bool × Bool × Bool × GoVal))
    (msg : Message)
    (hni : ∀ f ∈ fields, f.2.2.1 = false)
    (hnd : (emittedTags fields).Nodup)
    (hok : marshalStructInto NewMessage fields = some msg) :
    msg.keys = emittedTags fields ∧
    (∀ i : Int, emptyMessageElement (.gint i) = false) ∧
    (∀ n : Nat, emptyMessageElement (.guint n) = false) ∧
    (∀ b : Bool, emptyMessageElement (.gbool b) = false) ∧
    emptyMessageElement (.gstr []) = true ∧
    emptyMessageElement (.gslice none) = true ∧
    emptyMessageElement (.gslice (some [])) = true ∧
    emptyMessageElement (.gmap none) = true ∧
    emptyMessageElement (.gmap (some [])) = true ∧
    emptyMessageElement .gptrNil = true ∧
    (∀ fs, emptyMessageElement (.gstruct fs) = emptyFieldsAll fs) ∧
    marshalFieldVal (.gint 0) = some (.vstr [48]) ∧
    marshalFieldVal (.gbool false) = some (.vstr noVal) := by
  have h := marshalStructInto_keys fields NewMessage msg rfl hni (by simpa using hnd) hok
  exact ⟨by simpa using h.1, fun i => rfl, fun n => rfl, fun b => rfl, rfl, rfl, rfl,
    rfl, rfl, rfl, fun fs => rfl, rfl, rfl⟩

/-- The concrete field list for the C8 witness: an emitted string, an
omitted empty string, an emitted zero integer, an emitted false
boolean, and an omitted nil slice. -/
def c8fields : List (Bytes × Bool × Bool × Bool × GoVal) :=
  [([107], false, false, true, .gstr [118]),
   ([108], false, false, true, .gstr []),
   ([109], false, false, true, .gint 0),
   ([110], false, false, true, .gbool false),
   ([111], false, false, true, .gslice none)]

/-- Witness for C8 at the concrete field list: the `0` and `false`
fields are kept, the empty string and nil slice are omitted. -/
theorem c8_empty_field_omission_witness :
    Message.keys ⟨none, [[107], [109], [110]],
        [([107], .vstr [118]), ([109], .vstr [48]), ([110], .vstr noVal)]⟩ =
      emittedTags c8fields ∧
    (∀ i : Int, emptyMessageElement (.gint i) = false) ∧
    (∀ n : Nat, emptyMessageElement (.guint n) = false) ∧
    (∀ b : Bool, emptyMessageElement (.gbool b) = false) ∧
    emptyMessageElement (.gstr []) = true ∧
    emptyMessageElement (.gslice none) = true ∧
    emptyMessageElement (.gslice (some [])) = true ∧
    emptyMessageElement (.gmap none) = true ∧
    emptyMessageElement (.gmap (some [])) = true ∧
    emptyMessageElement .gptrNil = true ∧
    (∀ fs, emptyMessageElement (.gstruct fs) = emptyFieldsAll fs) ∧
    marshalFieldVal (.gint 0) = some (.vstr [48]) ∧
    marshalFieldVal (.gbool false) = some (.vstr noVal) :=
  c8_empty_field_omission c8fields
    ⟨none, [[107], [109], [110]],
      [([107], .vstr [118]), ([109], .vstr [48]), ([110], .vstr noVal)]⟩
    (by decide) (by decide) rfl

/-! ## Claim C10: key-list / data-map coherence (message.go) -/

/-- `Message.Set`: `marshalField(key, value)` stores the converted
value with `addItem`. -/
def Message.Set (m : Message) (key : Bytes) (value : MValue) : Message :=
  m.addItem key value

/-- The messages reachable through the container operations the claim
quantifies over: `NewMessage`, `Set`, `Unset`, a successful `decode`,
and `MarshalMessage` (`marshalFromStruct` into a fresh message). -/
inductive Reachable : Message → Prop where
  | new : Reachable NewMessage
  | set {m : Message} (key : Bytes) (value : MValue) :
      Reachable m → Reachable (m.Set key value)
  | unset {m : Message} (key : Bytes) :
      Reachable m → Reachable (m.Unset key)
  | decode {data : Bytes} {m : Message} (hb : ∀ b ∈ data, b < 256)
      (h : Message.decode data = .ok m) : Reachable m
  | marshal {fields : List (Bytes × Bool × Bool × Bool × GoVal)} {m : Message}
      (h : marshalStructInto NewMessage fields = some m) : Reachable m

theorem addItem_existing {m : Message} {k : Bytes} (v : MValue)
    (h : (dataLookup m.data k).isSome = true) :
    m.addItem k v = ⟨m.header, m.keys, dataInsert m.data k v⟩ := by
  rw [Message.addItem, Message.addItemFull]
  simp [h]

theorem dataKeys_dataInsert_mem {k : Bytes} (v : MValue) :
    ∀ {data : List (Bytes × MValue)}, (dataLookup data k).isSome = true →
      dataKeys (dataInsert data k v) = dataKeys data := by
  intro data
  induction data with
  | nil => intro h; rw [dataLookup] at h; cases h
  | cons hd rest ih =>
    intro h
    obtain ⟨k0, v0⟩ := hd
    rw [dataInsert]
    by_cases hk : k0 = k
    · rw [if_pos hk]
      simp [dataKeys, hk]
    · rw [if_neg hk]
      rw [dataLookup, if_neg hk] at h
      simp only [dataKeys, List.map_cons] at ih ⊢
      rw [ih h]

theorem addItem_coherent {m : Message} (k : Bytes) (v : MValue)
    (h1 : dataKeys m.data = m.keys) (h2 : m.keys.Nodup) :
    dataKeys (m.addItem k v).data = (m.addItem k v).keys ∧
      (m.addItem k v).keys.Nodup := by
  cases hlk : (dataLookup m.data k).isSome with
  | false =>
    have hnone : dataLookup m.data k = none := by
      revert hlk
      cases dataLookup m.data k <;> simp
    rw [addItem_fresh hnone]
    have hkout : k ∉ m.keys := by
      rw [← h1, ← dataLookup_eq_none_iff]
      exact hnone
    constructor
    · simp only [dataKeys, List.map_append, List.map_cons, List.map_nil]
      rw [show List.map Prod.fst m.data = dataKeys m.data from rfl, h1]
    · simp [List.nodup_append, h2, hkout]
  | true =>
    rw [addItem_existing v hlk]
    exact ⟨by rw [dataKeys_dataInsert_mem v hlk, h1], h2⟩

theorem dataDelete_not_mem {k : Bytes} :
    ∀ {data : List (Bytes × MValue)}, k ∉ dataKeys data → dataDelete data k = data := by
  intro data
  induction data with
  | nil => intro _; rw [dataDelete]
  | cons hd rest ih =>
    intro hk
    obtain ⟨k0, v0⟩ := hd
    rw [dataDelete]
    have hk' := (not_iff_not.mpr mem_dataKeys_cons).mp hk
    push_neg at hk'
    rw [if_neg (fun h => hk'.1 h.symm), ih hk'.2]

theorem dataKeys_dataDelete {k : Bytes} :
    ∀ {data : List (Bytes × MValue)}, (dataKeys data).Nodup →
      dataKeys (dataDelete data k) = (dataKeys data).erase k := by
  intro data
  induction data with
  | nil => intro _; simp [dataDelete, dataKeys]
  | cons hd rest ih =>
    intro hnd
    obtain ⟨k0, v0⟩ := hd
    have hk0 : dataKeys ((k0, v0) :: rest) = k0 :: dataKeys rest := by simp [dataKeys]
    rw [hk0] at hnd ⊢
    rw [dataDelete]
    by_cases heq : k0 = k
    · rw [if_pos heq]
      subst heq
      rw [List.erase_cons_head]
      rw [dataDelete_not_mem (List.nodup_cons.mp hnd).1]
    · rw [if_neg heq]
      rw [show dataKeys ((k0, v0) :: dataDelete rest k) =
          k0 :: dataKeys (dataDelete rest k) from by simp [dataKeys]]
      rw [ih (List.nodup_cons.mp hnd).2]
      rw [List.erase_cons_tail]
      simp [heq]

theorem unset_coherent {m : Message} (key : Bytes)
    (h1 : dataKeys m.data = m.keys) (h2 : m.keys.Nodup) :
    dataKeys (m.Unset key).data = (m.Unset key).keys ∧ (m.Unset key).keys.Nodup := by
  rw [Message.Unset]
  split
  · exact ⟨h1, h2⟩
  · refine ⟨?_, h2.erase key⟩
    show dataKeys (dataDelete m.data key) = m.keys.erase key
    rw [dataKeys_dataDelete (h1 ▸ h2), h1]

theorem dataLookup_dataInsert_ne {k k' : Bytes} (v : MValue) (hne : k' ≠ k) :
    ∀ {data : List (Bytes × MValue)},
      dataLookup (dataInsert data k v) k' = dataLookup data k' := by
  intro data
  induction data with
  | nil =>
    rw [dataInsert]
    simp only [dataLookup]
    rw [if_neg (fun h => hne h.symm)]
  | cons hd rest ih =>
    obtain ⟨k0, v0⟩ := hd
    rw [dataInsert]
    by_cases h0 : k0 = k
    · rw [if_pos h0]
      subst h0
      simp only [dataLookup]
      rw [if_neg (fun h => hne h.symm), if_neg (fun h => hne h.symm)]
    · rw [if_neg h0]
      simp only [dataLookup]
      by_cases hk0' : k0 = k'
      · rw [if_pos hk0', if_pos hk0']
      · rw [if_neg hk0', if_neg hk0', ih]

theorem marshalStructInto_coherent :
    ∀ (n : Nat) (fields : List (Bytes × Bool × Bool × Bool × GoVal)) (m m' : Message),
      sizeOf fields ≤ n → dataKeys m.data = m.keys → m.keys.Nodup →
      marshalStructInto m fields = some m' →
      dataKeys m'.data = m'.keys ∧ m'.keys.Nodup := by
  intro n
  induction n with
  | zero =>
    intro fields m m' hsz
    exact absurd hsz (by cases fields <;> simp)
  | succ n ih =>
    intro fields m m' hsz h1 h2 hok
    cases fields with
    | nil =>
      rw [marshalStructInto] at hok
      cases hok
      exact ⟨h1, h2⟩
    | cons f rest =>
      obtain ⟨tag, skipf, inlinef, canIf, v⟩ := f
      have hszrest : sizeOf rest ≤ n := by
        simp at hsz
        omega
      rw [marshalStructInto] at hok
      by_cases hskip : skipf = true
      · rw [if_pos hskip] at hok
        exact ih rest m m' hszrest h1 h2 hok
      · rw [if_neg hskip] at hok
        by_cases hcan : canIf = false
        · rw [if_pos hcan] at hok
          exact ih rest m m' hszrest h1 h2 hok
        · rw [if_neg hcan] at hok
          by_cases hinl : inlinef = true
          · rw [if_pos hinl] at hok
            cases hmi : marshalInline m v with
            | none => rw [hmi] at hok; cases hok
            | some m2 =>
              rw [hmi] at hok
              have hm2 : dataKeys m2.data = m2.keys ∧ m2.keys.Nodup := by
                cases v with
                | gstruct fields2 =>
                  rw [marshalInline] at hmi
                  refine ih fields2 m m2 ?_ h1 h2 hmi
                  simp at hsz
                  omega
                | gstr s => simp [marshalInline] at hmi
                | gslice e => simp [marshalInline] at hmi
                | gmap e => simp [marshalInline] at hmi
                | gint i => simp [marshalInline] at hmi
                | guint u => simp [marshalInline] at hmi
                | gbool b => simp [marshalInline] at hmi
                | gptrNil => simp [marshalInline] at hmi
                | gptr p => simp [marshalInline] at hmi
              exact ih rest m2 m' hszrest hm2.1 hm2.2 hok
          · rw [if_neg hinl] at hok
            by_cases hemp : emptyMessageElement v = true
            · rw [if_pos hemp] at hok
              exact ih rest m m' hszrest h1 h2 hok
            · rw [if_neg hemp] at hok
              cases hmv : marshalFieldVal v with
              | none => rw [hmv] at hok; cases hok
              | some mv =>
                rw [hmv] at hok
                have hco := addItem_coherent tag mv h1 h2
                exact ih rest (m.addItem tag mv) m' hszrest hco.1 hco.2 hok

/-- Claim C10 (confirmed): for every message reachable from
`NewMessage` by `Set`, `Unset`, `decode` and `MarshalMessage`, the key
list has no duplicates and equals (in insertion order) the key list of
the data map; `Set` on an existing key leaves the key list — hence
every key's position — and all other entries unchanged; `Unset`
removes one key, keeping the remaining keys in their relative order
(the result is a sublist). -/
theorem c10_key_map_coherence (m : Message) (hr : Reachable m) :
    (dataKeys m.data = m.keys ∧ m.keys.Nodup) ∧
    (∀ key value, (dataLookup m.data key).isSome = true →
        (m.Set key value).keys = m.keys ∧
        ∀ k', k' ≠ key →
          dataLookup (m.Set key value).data k' = dataLookup m.data k') ∧
    (∀ key, (m.Unset key).keys.Sublist m.keys) := by
  refine ⟨?_, fun key value hs => ?_, fun key => ?_⟩
  · induction hr with
    | new => exact ⟨rfl, List.nodup_nil⟩
    | set key value hr ih => exact addItem_coherent key value ih.1 ih.2
    | unset key hr ih => exact unset_coherent key ih.1 ih.2
    | decode hb h =>
      have hwf := (decode_inv h hb).2
      rw [Message.wf] at hwf
      simp only [Bool.and_eq_true, decide_eq_true_eq] at hwf
      obtain ⟨⟨-, hcanon⟩, hdwf⟩ := hwf
      exact ⟨hcanon, hcanon ▸ dataWF_keys_nodup _ hdwf⟩
    | marshal h =>
      exact marshalStructInto_coherent (sizeOf _) _ NewMessage _ le_rfl rfl
        List.nodup_nil h
  · rw [Message.Set, addItem_existing value hs]
    exact ⟨rfl, fun k' hk => dataLookup_dataInsert_ne value hk⟩
  · rw [Message.Unset]
    split
    · exact List.Sublist.refl _
    · exact List.erase_sublist _ _

/-- Witness for C10 at a concrete reachable message:
`NewMessage` with one key set, the key overwritten, and a second key
unset. -/
theorem c10_key_map_coherence_witness :
    (dataKeys (((NewMessage.Set [107] (.vstr [97])).Set [107] (.vstr [98])).Unset [108]).data =
        (((NewMessage.Set [107] (.vstr [97])).Set [107] (.vstr [98])).Unset [108]).keys ∧
      (((NewMessage.Set [107] (.vstr [97])).Set [107] (.vstr [98])).Unset [108]).keys.Nodup) ∧
    (∀ key value,
        (dataLookup (((NewMessage.Set [107] (.vstr [97])).Set [107] (.vstr [98])).Unset
            [108]).data key).isSome = true →
        ((((NewMessage.Set [107] (.vstr [97])).Set [107] (.vstr [98])).Unset [108]).Set key
            value).keys =
          (((NewMessage.Set [107] (.vstr [97])).Set [107] (.vstr [98])).Unset [108]).keys ∧
        ∀ k', k' ≠ key →
          dataLookup
              (((((NewMessage.Set [107] (.vstr [97])).Set [107] (.vstr [98])).Unset
                  [108]).Set key value).data) k' =
            dataLookup
              ((((NewMessage.Set [107] (.vstr [97])).Set [107] (.vstr [98])).Unset
                  [108]).data) k') ∧
    (∀ key,
        ((((NewMessage.Set [107] (.vstr [97])).Set [107] (.vstr [98])).Unset [108]).Unset
            key).keys.Sublist
          (((NewMessage.Set [107] (.vstr [97])).Set [107] (.vstr [98])).Unset [108]).keys) :=
  c10_key_map_coherence _
    (Reachable.unset [108] (Reachable.set [107] (.vstr [98])
      (Reachable.set [107] (.vstr [97]) Reachable.new)))

end Govici
